import Mathlib

/-!
Shallow embedding of `src/fft_correlate.c` (crimm's batched 3D FFT
correlation engine) and proofs of the specification's claims about it.

Conventions of the embedding:
* C `float` values are modelled exactly: by `ℚ` in the index/selection
  routines (whose claims are exact index and ordering facts) and by `ℝ`/`ℂ`
  in the FFT pipeline (whose claim is the exact correlation theorem).
* C arrays are modelled as total functions from flat addresses; every raw
  pointer access also gets a guarded (`Option`-returning) variant used to
  state the in-bounds claims.  Uninitialised `malloc` memory is modelled by
  an explicit parameter holding arbitrary initial contents.
* C's `%` on `int` truncates toward zero, which is `Int.tmod`.
-/

namespace Crimm

/-! ## Basic C arithmetic: `%` on int, flat 3D indexing -/

/-- C99 `%` on `int`: remainder truncated toward zero (`Int.tmod`). -/
def cMod (a b : ℤ) : ℤ := Int.tmod a b

/-- Source lines 171-179: `roll_cur_idx(nx, ny, nz, x, y, z, roll_steps)`,
the flat destination index `(x + roll_steps) % nx * ny * nz +
(y + roll_steps) % ny * nz + (z + roll_steps) % nz`. -/
def roll_cur_idx (nx ny nz x y z roll_steps : ℤ) : ℤ :=
  cMod (x + roll_steps) nx * (ny * nz) + cMod (y + roll_steps) ny * nz +
    cMod (z + roll_steps) nz

/-- Flat row-major index `x * ny * nz + y * nz + z` of a grid point. -/
def flatIdx (ny nz x y z : ℕ) : ℕ := x * (ny * nz) + y * nz + z

/-! ## Buffers and guarded access

A buffer is a total function `ℤ → ℚ`; the guarded variants return `none`
exactly when the C code would index outside `[0, bound)`. -/

/-- Overwrite one cell of a buffer. -/
def writeSet (s : ℤ → ℚ) (i : ℤ) (v : ℚ) : ℤ → ℚ := fun t => if t = i then v else s t

/-- Add into one cell of a buffer (C `arr[i] += v`). -/
def writeAdd (s : ℤ → ℚ) (i : ℤ) (v : ℚ) : ℤ → ℚ := fun t => if t = i then s t + v else s t

/-- Guarded read: `none` when `i` is outside `[0, bound)`. -/
def readAt (s : ℤ → ℚ) (bound : ℕ) (i : ℤ) : Option ℚ :=
  if 0 ≤ i ∧ i < (bound : ℤ) then some (s i) else none

/-- Guarded overwrite: `none` when `i` is outside `[0, bound)`. -/
def writeSetAt (s : ℤ → ℚ) (bound : ℕ) (i : ℤ) (v : ℚ) : Option (ℤ → ℚ) :=
  if 0 ≤ i ∧ i < (bound : ℤ) then some (writeSet s i v) else none

/-- Guarded accumulate: `none` when `i` is outside `[0, bound)`. -/
def writeAddAt (s : ℤ → ℚ) (bound : ℕ) (i : ℤ) (v : ℚ) : Option (ℤ → ℚ) :=
  if 0 ≤ i ∧ i < (bound : ℤ) then some (writeAdd s i v) else none

/-! ## `sum_grids` (source lines 181-217)

For one orientation the C code loops channels `j < n_grids` and, per
channel, the three spatial counters `x, y, z` downward while `new_x, new_y,
new_z` count upward (so `x = nx-1-new_x` and so on), accumulating
`cur_arr_grids[x*ny*nz + y*nz + z]` into
`cur_arr_result[(new_x+roll) % nx * ny*nz + (new_y+roll) % ny * nz +
(new_z+roll) % nz]`.  The iteration space is modelled as the list of
`(j, new_x, new_y, new_z)` tuples in loop order. -/

/-- The `(new_x, new_y, new_z)` triples of the three nested spatial loops,
in loop order. -/
def loopTriples (nx ny nz : ℕ) : List (ℕ × ℕ × ℕ) :=
  (List.range nx).flatMap fun a =>
    (List.range ny).flatMap fun b =>
      (List.range nz).map fun c => (a, b, c)

/-- The `(j, new_x, new_y, new_z)` tuples of `sum_grids`'s per-orientation
loops, in loop order. -/
def sumGridsLoop (G nx ny nz : ℕ) : List (ℕ × ℕ × ℕ × ℕ) :=
  (List.range G).flatMap fun j => (loopTriples nx ny nz).map fun t => (j, t)

/-- Source flat index read by `sum_grids` for counters `(a, b, c)`:
`x*ny*nz + y*nz + z` with `x = nx-1-a`, `y = ny-1-b`, `z = nz-1-c`. -/
def sumGridsSrc (nx ny nz a b c : ℕ) : ℕ :=
  flatIdx ny nz (nx - 1 - a) (ny - 1 - b) (nz - 1 - c)

/-- One iteration of `sum_grids`'s inner loop body on the result buffer. -/
def sumGridsStep (grids : ℕ → ℤ → ℚ) (nx ny nz : ℕ) (roll : ℤ)
    (s : ℤ → ℚ) (e : ℕ × ℕ × ℕ × ℕ) : ℤ → ℚ :=
  writeAdd s (roll_cur_idx nx ny nz e.2.1 e.2.2.1 e.2.2.2 roll)
    (grids e.1 (sumGridsSrc nx ny nz e.2.1 e.2.2.1 e.2.2.2))

/-- `sum_grids` for one orientation: fold the loop body over the iteration
space, mutating the caller-supplied result buffer. -/
def sum_gridsOrient (G nx ny nz : ℕ) (roll : ℤ) (grids : ℕ → ℤ → ℚ)
    (result : ℤ → ℚ) : ℤ → ℚ :=
  (sumGridsLoop G nx ny nz).foldl (sumGridsStep grids nx ny nz roll) result

/-- `sum_grids`: every orientation `i` accumulates its own channels into its
own result buffer (the orientation loop is embarrassingly parallel and the
blocks are disjoint, so it is modelled pointwise in `i`). -/
def sum_grids (G nx ny nz : ℕ) (roll : ℤ) (grids : ℕ → ℕ → ℤ → ℚ)
    (result : ℕ → ℤ → ℚ) : ℕ → ℤ → ℚ :=
  fun i => sum_gridsOrient G nx ny nz roll (grids i) (result i)

/-- One iteration of `sum_grids`'s loop body with guarded reads and writes:
`none` when the C code would touch an address outside the `nx*ny*nz`-cell
buffers. -/
def sumGridsStepChecked (grids : ℕ → ℤ → ℚ) (nx ny nz : ℕ) (roll : ℤ)
    (s : ℤ → ℚ) (e : ℕ × ℕ × ℕ × ℕ) : Option (ℤ → ℚ) :=
  (readAt (grids e.1) (nx * ny * nz) (sumGridsSrc nx ny nz e.2.1 e.2.2.1 e.2.2.2)).bind
    fun v => writeAddAt s (nx * ny * nz) (roll_cur_idx nx ny nz e.2.1 e.2.2.1 e.2.2.2 roll) v

/-- Guarded `sum_grids` for one orientation. -/
def sum_gridsOrientChecked (G nx ny nz : ℕ) (roll : ℤ) (grids : ℕ → ℤ → ℚ)
    (result : ℤ → ℚ) : Option (ℤ → ℚ) :=
  (sumGridsLoop G nx ny nz).foldlM (sumGridsStepChecked grids nx ny nz roll) result

/-! ## `flip_and_roll` (source lines 141-169)

Per orientation the C code takes `cur_arr = &grids[i][0][0]` (the start of
the orientation's block, which is channel 0's buffer) and for every channel
`j` and flat cell `k` overwrites `grids[i][j][k]` with
`cur_arr[(x+roll) % nx * ny*nz + (y+roll) % ny * nz + (z+roll) % nz]`
where `x = k / (ny*nz)`, `y = (k % (ny*nz)) / nz`, `z = k % nz`.  The reads
go through the orientation's live block, so the in-place aliasing of the C
code is captured: channel 0 is read while being rewritten. -/

/-- The rolled source address read by `flip_and_roll` for flat cell `k`
(the coordinate recovery `x = k / (ny*nz)`, `y = (k % (ny*nz)) / nz`,
`z = k % nz` happens on the nonnegative loop counter, where C's truncating
`int` division is plain natural division). -/
def flipRollSrc (nx ny nz : ℕ) (roll : ℤ) (k : ℕ) : ℤ :=
  roll_cur_idx nx ny nz ((k / (ny * nz) : ℕ) : ℤ) ((k % (ny * nz) / nz : ℕ) : ℤ)
    ((k % nz : ℕ) : ℤ) roll

/-- The `(j, k)` pairs of `flip_and_roll`'s per-orientation loops, in loop
order. -/
def flipRollLoop (G N : ℕ) : List (ℕ × ℕ) :=
  (List.range G).flatMap fun j => (List.range N).map fun k => (j, k)

/-- One iteration of `flip_and_roll`'s loop body on an orientation block
(flat layout: channel `j`, cell `k` at address `j*nx*ny*nz + k`). -/
def flipRollStep (nx ny nz : ℕ) (roll : ℤ) (s : ℤ → ℚ) (e : ℕ × ℕ) : ℤ → ℚ :=
  writeSet s ((e.1 * (nx * ny * nz) + e.2 : ℕ) : ℤ) (s (flipRollSrc nx ny nz roll e.2))

/-- `flip_and_roll` for one orientation block of `G` channels. -/
def flip_and_rollOrient (G nx ny nz : ℕ) (roll : ℤ) (s : ℤ → ℚ) : ℤ → ℚ :=
  (flipRollLoop G (nx * ny * nz)).foldl (flipRollStep nx ny nz roll) s

/-- `flip_and_roll`: orientation blocks are disjoint, so the orientation
loop is modelled pointwise in `i`. -/
def flip_and_roll (G nx ny nz : ℕ) (roll : ℤ) (grids : ℕ → ℤ → ℚ) : ℕ → ℤ → ℚ :=
  fun i => flip_and_rollOrient G nx ny nz roll (grids i)

/-- One iteration of `flip_and_roll`'s loop body with guarded access: the
read stays inside the orientation's first `nx*ny*nz` cells (channel 0's
buffer, which is what `cur_arr` points at), the write inside the whole
`G*nx*ny*nz`-cell orientation block. -/
def flipRollStepChecked (G nx ny nz : ℕ) (roll : ℤ) (s : ℤ → ℚ) (e : ℕ × ℕ) :
    Option (ℤ → ℚ) :=
  (readAt s (nx * ny * nz) (flipRollSrc nx ny nz roll e.2)).bind fun v =>
    writeSetAt s (G * (nx * ny * nz)) ((e.1 * (nx * ny * nz) + e.2 : ℕ) : ℤ) v

/-- Guarded `flip_and_roll` for one orientation block. -/
def flip_and_rollOrientChecked (G nx ny nz : ℕ) (roll : ℤ) (s : ℤ → ℚ) :
    Option (ℤ → ℚ) :=
  (flipRollLoop G (nx * ny * nz)).foldlM (flipRollStepChecked G nx ny nz roll) s

/-! ## `get_top_n_scores` (source lines 11-14, 27-64)

The C selector keeps a `top_n_poses`-element buffer of `(index, score)`
pairs.  The first `top_n_poses` stream entries are written in order; when
the buffer fills it is `qsort`ed with `comparator` (descending by score, so
the worst kept score sits at slot 0); afterwards a new score replaces slot 0
only when strictly below it, followed by a re-sort.  `qsort` leaves the
relative order of equal keys unspecified; it is modelled by the
deterministic (stable) insertion sort on the same descending comparison.
The `malloc`ed buffer's initial contents are the explicit `garbage`
parameter. -/

/-- Source lines 11-14: `ScoreIndexPair`. -/
structure ScoreIndexPair where
  index : ℕ
  score : ℚ
deriving DecidableEq

instance : Inhabited ScoreIndexPair := ⟨⟨0, 0⟩⟩

/-- Source lines 27-32: `comparator(p, q) = (l < r) - (l > r)` on the two
scores, the max-heap (descending) order handed to `qsort`. -/
def comparator (p q : ScoreIndexPair) : ℤ :=
  (if p.score < q.score then 1 else 0) - (if p.score > q.score then 1 else 0)

/-- The ordering `comparator` sorts by: `p` comes no later than `q` when
`comparator p q ≤ 0`, i.e. descending by score. -/
def scoreDesc (p q : ScoreIndexPair) : Prop := q.score ≤ p.score

instance : DecidableRel scoreDesc := fun p q => inferInstanceAs (Decidable (q.score ≤ p.score))

instance : IsTotal ScoreIndexPair scoreDesc := ⟨fun p q => le_total q.score p.score⟩

instance : IsTrans ScoreIndexPair scoreDesc := ⟨fun _ _ _ h h2 => le_trans h2 h⟩

/-- The model of `qsort(heap, top_n_poses, sizeof(ScoreIndexPair),
comparator)`: sort descending by score. -/
def sortDesc (l : List ScoreIndexPair) : List ScoreIndexPair := l.insertionSort scoreDesc

/-- One iteration of `get_top_n_scores`'s stream loop: `e = (i, scores[i])`.
While `i < top_n_poses` the entry is written into slot `i` (with the build
sort once the buffer fills); afterwards slot 0 — the worst kept score — is
replaced and the buffer re-sorted only when the new score is strictly
lower. -/
def selStep (top_n_poses : ℕ) (heap : List ScoreIndexPair) (e : ℕ × ℚ) :
    List ScoreIndexPair :=
  if e.1 < top_n_poses then
    (if e.1 = top_n_poses - 1 then sortDesc (heap.set e.1 ⟨e.1, e.2⟩)
     else heap.set e.1 ⟨e.1, e.2⟩)
  else if e.2 < heap.headI.score then sortDesc (heap.set 0 ⟨e.1, e.2⟩)
  else heap

/-- Source lines 34-64: `get_top_n_scores(scores, n, top_n_poses, out)`.
The output buffer is the final heap. -/
def get_top_n_scores (scores : List ℚ) (top_n_poses : ℕ)
    (garbage : List ScoreIndexPair) : List ScoreIndexPair :=
  scores.enum.foldl (selStep top_n_poses) garbage

/-- Modelled from the spec (§8.4): the full ascending sort a selector run is
verified against. -/
def sortAsc (l : List ℚ) : List ℚ := l.insertionSort (· ≤ ·)

/-- The `(index, score)` pairs the fill phase writes for stream entries
starting at index `k`. -/
def streamPairsFrom (k : ℕ) (B : List ℚ) : List ScoreIndexPair :=
  (B.enumFrom k).map fun e => ⟨e.1, e.2⟩

/-- Invariant of the selector's stream phase after `m` entries: the buffer
is sorted descending, holds `N` entries whose scores form a submultiset of
the scores seen so far, every discarded score is at least every kept one,
and every kept pair records a true stream entry. -/
def SelInv (scores : List ℚ) (N m : ℕ) (heap : List ScoreIndexPair) : Prop :=
  heap.Sorted scoreDesc ∧ heap.length = N
    ∧ ((heap.map fun p => p.score : List ℚ) : Multiset ℚ) ≤ ((scores.take m : List ℚ) : Multiset ℚ)
    ∧ (∀ x ∈ (((scores.take m : List ℚ) : Multiset ℚ)
          - ((heap.map fun p => p.score : List ℚ) : Multiset ℚ)),
        ∀ p ∈ heap, p.score ≤ x)
    ∧ (∀ p ∈ heap, scores.get? p.index = some p.score)

/-! ## `py_fft_correlate_batch` (source lines 221-260)

The Python-boundary wrapper validates the two arrays before handing them to
`fft_correlate_batch`: receptor must be 4-dimensional float32, result
5-dimensional float32, and `recep_grid.dims[0]` (the channel count) must
equal `result.dims[1]`.  Nothing else is checked.  An array is modelled by
its dimension list, its dtype code and its flat data. -/

/-- Numpy's dtype code for `float32` (`NPY_FLOAT32 = NPY_FLOAT = 11`). -/
def NPY_FLOAT32 : ℕ := 11

/-- A numpy array as the wrapper sees it: dimensions, dtype code, flat data. -/
structure NpArray where
  dims : List ℕ
  dtype : ℕ
  data : ℕ → ℝ

/-- The validation of `py_fft_correlate_batch` (source lines 234-255):
`some msg` is `PyErr_SetString(PyExc_TypeError, msg); return NULL`. -/
def pyShapeCheck (recep_grid result : NpArray) : Option String :=
  if ¬ (recep_grid.dims.length = 4 ∧ recep_grid.dtype = NPY_FLOAT32) then
    some "Expected receptor arrays of float32 with 4 dimensions."
  else if ¬ (result.dims.length = 5 ∧ result.dtype = NPY_FLOAT32) then
    some "Expected result arrays of float32 with 5 dimensions."
  else if ¬ (recep_grid.dims.getD 0 0 = result.dims.getD 1 0) then
    some "Expected same number of grids for both receptor and result arrays."
  else
    none

/-! ## `fft_correlate_batch` (source lines 67-123)

The kernel: per channel, one forward real-to-complex FFT of the receptor
field into a shared half-spectrum; per orientation (in parallel), a forward
FFT of the candidate field, the pointwise conjugate multiply with the
`1/(nx*ny*nz)` scale, and an unnormalised inverse complex-to-real FFT back
into the candidate buffer.

FFTW's `fftwf_plan_dft_r2c_3d` computes the unnormalised discrete Fourier
transform `X[k] = Σ_j x[j] · exp(-2πi⟨k,j⟩)` of a real field, stored on the
half-spectrum `nx × ny × (nz/2+1)` (Hermitian symmetry makes the rest
redundant); `fftwf_plan_dft_c2r_3d` computes the unnormalised inverse on the
Hermitian extension of its half-spectrum input.  Fields are modelled as
real-valued functions on `ZMod nx × ZMod ny × ZMod nz` (row-major flat
addressing and the cyclic index arithmetic of the DFT coincide there), and
the transforms as those sums. -/

/-- Spatial (and full frequency) index of an `(nx, ny, nz)` grid. -/
abbrev GridIdx (nx ny nz : ℕ) : Type := ZMod nx × ZMod ny × ZMod nz

/-- Frequency index of the compressed half-spectrum of `nx*ny*(nz/2+1)`
points kept by the real-input transforms. -/
abbrev HalfIdx (nx ny nz : ℕ) : Type := ZMod nx × ZMod ny × Fin (nz / 2 + 1)

noncomputable section FFTModel

/-- The character `exp(2πi·a/n)` of `ZMod n`, the root of unity the DFT is
built from. -/
def chi (n : ℕ) (a : ZMod n) : ℂ :=
  Complex.exp (2 * Real.pi * Complex.I * (ZMod.val a) / n)

variable {nx ny nz : ℕ}

/-- The 3D character `exp(2πi(k₁j₁/nx + k₂j₂/ny + k₃j₃/nz))` pairing a
frequency index with a spatial index. -/
def pairing (k j : GridIdx nx ny nz) : ℂ :=
  chi nx (k.1 * j.1) * chi ny (k.2.1 * j.2.1) * chi nz (k.2.2 * j.2.2)

variable [NeZero nx] [NeZero ny] [NeZero nz]

/-- The unnormalised forward 3D DFT (FFTW's sign convention:
`X[k] = Σ_j x[j] · exp(-2πi⟨k,j⟩)`). -/
def dft (f : GridIdx nx ny nz → ℂ) (k : GridIdx nx ny nz) : ℂ :=
  ∑ j : GridIdx nx ny nz, f j * (starRingEnd ℂ) (pairing k j)

/-- Inclusion of a half-spectrum index into the full frequency grid. -/
def toFull (h : HalfIdx nx ny nz) : GridIdx nx ny nz :=
  (h.1, h.2.1, ((h.2.2 : ℕ) : ZMod nz))

/-- `fftwf_execute_dft_r2c`: the forward DFT of a real field, restricted to
the stored half-spectrum. -/
def r2c (f : GridIdx nx ny nz → ℝ) (h : HalfIdx nx ny nz) : ℂ :=
  dft (fun i => (f i : ℂ)) (toFull h)

/-- Source lines 97 and 110-112: the pointwise step
`cur_fft_l[k] = conjf(fft_r[k]) * cur_fft_l[k] * scale` over the
half-spectrum, with `scale = 1.0 / N_grid_points`. -/
def correlSpectrum (recep lig : GridIdx nx ny nz → ℝ) (h : HalfIdx nx ny nz) : ℂ :=
  (starRingEnd ℂ) (r2c recep h) * r2c lig h * ((1 / (nx * ny * nz : ℝ) : ℝ) : ℂ)

/-- The Hermitian extension FFTW's `c2r` transform applies to its
half-spectrum input: frequencies with `k₃ > nz/2` are read off the stored
conjugate-mirror entry. -/
def hermExt (X : HalfIdx nx ny nz → ℂ) (k : GridIdx nx ny nz) : ℂ :=
  if h : (k.2.2).val ≤ nz / 2 then
    X (k.1, k.2.1, ⟨(k.2.2).val, Nat.lt_succ_of_le h⟩)
  else
    (starRingEnd ℂ) (X (-k.1, -k.2.1, ⟨nz - (k.2.2).val, by
      have := ZMod.val_lt k.2.2
      omega⟩))

/-- `fftwf_execute_dft_c2r`: the unnormalised inverse DFT of the Hermitian
extension, written into a real array. -/
def c2r (X : HalfIdx nx ny nz → ℂ) (j : GridIdx nx ny nz) : ℝ :=
  (∑ k : GridIdx nx ny nz, hermExt X k * pairing k j).re

/-- Source lines 84 and 94: `plan_fwd = fftwf_plan_dft_r2c_3d(..., recep_arr,
fft_r, FFTW_MEASURE)` is planned directly on `recep_arr =
PyArray_GETPTR1(recep_grid, 0)`, the live channel-0 receptor field.
`FFTW_MEASURE` planning runs trial transforms that overwrite the planned
arrays (FFTW documents that input data must be initialised *after* plan
creation), so by the time the execution loop starts, channel 0 of the
receptor holds unspecified planner residue `gR` instead of its original
field.  All other channels are untouched. -/
def planClobberRecep {G : ℕ} (recep_grid : Fin G → GridIdx nx ny nz → ℝ)
    (gR : GridIdx nx ny nz → ℝ) : Fin G → GridIdx nx ny nz → ℝ :=
  fun c => if (c : ℕ) = 0 then gR else recep_grid c

/-- Source lines 85 and 95: `plan_inv = fftwf_plan_dft_c2r_3d(..., fft_l,
lig_arr, FFTW_MEASURE)` is planned with output `lig_arr =
PyArray_GETPTR1(result, 0)`, the live `(orientation 0, channel 0)` block of
the result array.  The `FFTW_MEASURE` trial transforms overwrite those
`nx*ny*nz` floats, so that one candidate block holds unspecified planner
residue `gL` when the execution loop reads it; every other `(o, c)` block
is untouched (each is read exactly once, before it is overwritten). -/
def planClobberResult {G O : ℕ} (result : Fin O → Fin G → GridIdx nx ny nz → ℝ)
    (gL : GridIdx nx ny nz → ℝ) : Fin O → Fin G → GridIdx nx ny nz → ℝ :=
  fun o c => if (o : ℕ) = 0 ∧ (c : ℕ) = 0 then gL else result o c

/-- Source lines 67-123: `fft_correlate_batch(recep_grid, result, n_threads)`.
`result` holds the candidate (ligand) fields on input; each `(o, c)` buffer
is overwritten with the inverse transform of the conjugate product of the
channel-`c` receptor spectrum with its own spectrum — where the fields are
the ones present *after* `FFTW_MEASURE` planning (lines 94-95) has clobbered
the channel-0 receptor field to `gR` and the `(0, 0)` candidate block to
`gL`.  Orientations are data-race free (each writes only its own buffer),
so the parallel loop is modelled pointwise. -/
def fft_correlate_batch {G O : ℕ} (recep_grid : Fin G → GridIdx nx ny nz → ℝ)
    (result : Fin O → Fin G → GridIdx nx ny nz → ℝ)
    (gR gL : GridIdx nx ny nz → ℝ) :
    Fin O → Fin G → GridIdx nx ny nz → ℝ :=
  fun o c => c2r (correlSpectrum (planClobberRecep recep_grid gR c)
    (planClobberResult result gL o c))

/-- Modelled from the spec (§8.1): the direct brute-force spatial
cross-correlation `corr[j] = Σ_a target[a] · cand[a + j]` (cyclic, as the
frequency-domain correlation is periodic). -/
def bruteCorrelate (target cand : GridIdx nx ny nz → ℝ) (j : GridIdx nx ny nz) : ℝ :=
  ∑ a : GridIdx nx ny nz, target a * cand (a + j)

end FFTModel

/-! ## The full wrapper: validation then kernel

`py_fft_correlate_batch` validates and then runs `fft_correlate_batch` on
the flat numpy buffers; on a validation failure it returns the error and no
array has been touched.  The kernel reads its dimensions from `recep_grid`
alone (which is what makes unvalidated spatial mismatches dangerous). -/

/-- The flat result data after `fft_correlate_batch` ran on the numpy
buffers, with all dimensions read from the two arrays exactly as the C
kernel does (`n_grids`, `nx`, `ny`, `nz` from `recep_grid`,
`n_orientations` from `result`), and with the unspecified `FFTW_MEASURE`
planner residue in the clobbered channel-0 receptor field and `(0, 0)`
candidate block passed through as the flat fields `gR`, `gL`. -/
noncomputable def pyKernelData (recep_grid result : NpArray)
    (gR gL : ℕ → ℝ) : ℕ → ℝ := fun t =>
  let G := recep_grid.dims.getD 0 0
  let nx := recep_grid.dims.getD 1 0
  let ny := recep_grid.dims.getD 2 0
  let nz := recep_grid.dims.getD 3 0
  let N := nx * ny * nz
  let O := result.dims.getD 0 0
  if hin : 0 < nx ∧ 0 < ny ∧ 0 < nz ∧ t < O * (G * N) then
    haveI : NeZero nx := ⟨by omega⟩
    haveI : NeZero ny := ⟨by omega⟩
    haveI : NeZero nz := ⟨by omega⟩
    have hGN : 0 < G * N := by
      rcases Nat.eq_zero_or_pos (G * N) with h0 | h0
      · exact absurd hin.2.2.2 (by simp [h0])
      · exact h0
    let o : Fin O := ⟨t / (G * N), (Nat.div_lt_iff_lt_mul hGN).2 hin.2.2.2⟩
    let c : Fin G := ⟨t % (G * N) / N, by
      have h1 : t % (G * N) < G * N := Nat.mod_lt _ hGN
      have hN : 0 < N := by
        have := hin.1; have := hin.2.1; have := hin.2.2.1
        positivity
      exact (Nat.div_lt_iff_lt_mul hN).2 h1⟩
    let k := t % (G * N) % N
    fft_correlate_batch
      (fun cc (i : GridIdx nx ny nz) =>
        recep_grid.data (cc.val * N + flatIdx ny nz (ZMod.val i.1) (ZMod.val i.2.1) (ZMod.val i.2.2)))
      (fun oo cc (i : GridIdx nx ny nz) =>
        result.data (oo.val * (G * N) + cc.val * N +
          flatIdx ny nz (ZMod.val i.1) (ZMod.val i.2.1) (ZMod.val i.2.2)))
      (fun i : GridIdx nx ny nz =>
        gR (flatIdx ny nz (ZMod.val i.1) (ZMod.val i.2.1) (ZMod.val i.2.2)))
      (fun i : GridIdx nx ny nz =>
        gL (flatIdx ny nz (ZMod.val i.1) (ZMod.val i.2.1) (ZMod.val i.2.2)))
      o c (((k / (ny * nz) : ℕ) : ZMod nx), ((k % (ny * nz) / nz : ℕ) : ZMod ny),
        ((k % nz : ℕ) : ZMod nz))
  else result.data t

/-- Source lines 221-260: the Python-boundary wrapper.  On a failed check it
returns the `TypeError` message and neither array is produced changed; on
success the result array's data is overwritten by the kernel (whose output
depends on the unspecified `FFTW_MEASURE` planner residue `gR`, `gL`). -/
noncomputable def py_fft_correlate_batch (recep_grid result : NpArray)
    (gR gL : ℕ → ℝ) : Except String (NpArray × NpArray) :=
  match pyShapeCheck recep_grid result with
  | some msg => Except.error msg
  | none => Except.ok (recep_grid,
      { result with data := pyKernelData recep_grid result gR gL })

/-! ## Arithmetic facts about C's `%` for the roll index -/

theorem cMod_eq_emod {a b : ℤ} (ha : 0 ≤ a) (hb : 0 ≤ b) : cMod a b = a % b :=
  Int.tmod_eq_emod ha hb

theorem cMod_nonneg {a : ℤ} (b : ℤ) (ha : 0 ≤ a) : 0 ≤ cMod a b :=
  Int.tmod_nonneg b ha

theorem cMod_lt_of_pos (a : ℤ) {b : ℤ} (hb : 0 < b) : cMod a b < b :=
  Int.tmod_lt_of_pos a hb

/-- For an in-range nonnegative value, C's `%` is the identity. -/
theorem cMod_eq_self {a b : ℤ} (ha : 0 ≤ a) (hab : a < b) : cMod a b = a := by
  rw [cMod_eq_emod ha (le_of_lt (lt_of_le_of_lt ha hab))]
  exact Int.emod_eq_of_lt ha hab

/-- An integer multiple of `n` strictly between `-n` and `n` is `0`. -/
theorem eq_zero_of_dvd_of_abs_lt {n d : ℤ} (hdvd : n ∣ d) (h1 : -n < d) (h2 : d < n) :
    d = 0 := by
  obtain ⟨t, rfl⟩ := hdvd
  rcases lt_trichotomy t 0 with h | h | h
  · have : n * t ≤ n * (-1) := by
      have hn : 0 < n := by nlinarith
      exact mul_le_mul_of_nonneg_left (by omega) (le_of_lt hn)
    linarith
  · simp [h]
  · have : n * 1 ≤ n * t := by
      have hn : 0 < n := by nlinarith
      exact mul_le_mul_of_nonneg_left (by omega) (le_of_lt hn)
    linarith

/-- The per-axis roll map `a ↦ (a + r) % n` is injective on `[0, n)` for a
nonnegative shift. -/
theorem rollCoord_inj {n a b r : ℤ} (ha : 0 ≤ a) (ha2 : a < n) (hb : 0 ≤ b)
    (hb2 : b < n) (hr : 0 ≤ r) (h : cMod (a + r) n = cMod (b + r) n) : a = b := by
  have hn : 0 ≤ n := le_of_lt (lt_of_le_of_lt ha ha2)
  rw [cMod_eq_emod (by omega) hn, cMod_eq_emod (by omega) hn] at h
  have hdvd : n ∣ (a - b) := by
    have h0 : (a + r - (b + r)) % n = 0 := by
      rw [Int.sub_emod, h, sub_self, Int.zero_emod]
    have := Int.dvd_of_emod_eq_zero h0
    simpa using this
  have := eq_zero_of_dvd_of_abs_lt hdvd (by omega) (by omega)
  omega

/-- Decomposing a flat index with in-range `y`/`z` components is unique. -/
theorem flat_decomp_inj {ny nz u v w p q s : ℤ} (hv : 0 ≤ v) (hv2 : v < ny)
    (hw : 0 ≤ w) (hw2 : w < nz) (hq : 0 ≤ q) (hq2 : q < ny) (hs : 0 ≤ s)
    (hs2 : s < nz) (h : u * (ny * nz) + v * nz + w = p * (ny * nz) + q * nz + s) :
    u = p ∧ v = q ∧ w = s := by
  have hnz : 0 < nz := by omega
  have hws : w = s := by
    have hdvd : nz ∣ (w - s) := ⟨(p - u) * ny + (q - v), by linear_combination h⟩
    have := eq_zero_of_dvd_of_abs_lt hdvd (by omega) (by omega)
    omega
  subst hws
  have h2 : u * ny + v = p * ny + q := by
    have h3 : (u * ny + v) * nz = (p * ny + q) * nz := by linear_combination h
    exact mul_right_cancel₀ (by omega) h3
  have hvq : v = q := by
    have hdvd : ny ∣ (v - q) := ⟨p - u, by linear_combination h2⟩
    have := eq_zero_of_dvd_of_abs_lt hdvd (by omega) (by omega)
    omega
  subst hvq
  have hny : 0 < ny := by omega
  refine ⟨?_, rfl, rfl⟩
  have h4 : u * ny = p * ny := by linear_combination h2
  exact mul_right_cancel₀ (by omega) h4

/-- The full roll destination map is injective on in-range grid coordinates,
for a nonnegative shift. -/
theorem roll_cur_idx_inj {nx ny nz : ℕ} {r : ℤ} {a b c p q s : ℕ} (hr : 0 ≤ r)
    (ha : a < nx) (hb : b < ny) (hc : c < nz) (hp : p < nx) (hq : q < ny)
    (hs : s < nz)
    (h : roll_cur_idx nx ny nz a b c r = roll_cur_idx nx ny nz p q s r) :
    a = p ∧ b = q ∧ c = s := by
  unfold roll_cur_idx at h
  have hnx : (0 : ℤ) < nx := by exact_mod_cast Nat.pos_of_ne_zero (by omega)
  have hny : (0 : ℤ) < ny := by exact_mod_cast Nat.pos_of_ne_zero (by omega)
  have hnz : (0 : ℤ) < nz := by exact_mod_cast Nat.pos_of_ne_zero (by omega)
  have h1 := flat_decomp_inj (cMod_nonneg ny (by positivity)) (cMod_lt_of_pos _ hny)
    (cMod_nonneg nz (by positivity)) (cMod_lt_of_pos _ hnz)
    (cMod_nonneg ny (by positivity)) (cMod_lt_of_pos _ hny)
    (cMod_nonneg nz (by positivity)) (cMod_lt_of_pos _ hnz) h
  have e1 := rollCoord_inj (Int.natCast_nonneg a) (by exact_mod_cast ha)
    (Int.natCast_nonneg p) (by exact_mod_cast hp) hr h1.1
  have e2 := rollCoord_inj (Int.natCast_nonneg b) (by exact_mod_cast hb)
    (Int.natCast_nonneg q) (by exact_mod_cast hq) hr h1.2.1
  have e3 := rollCoord_inj (Int.natCast_nonneg c) (by exact_mod_cast hc)
    (Int.natCast_nonneg s) (by exact_mod_cast hs) hr h1.2.2
  exact ⟨by exact_mod_cast e1, by exact_mod_cast e2, by exact_mod_cast e3⟩

/-! ## Fold lemmas for the accumulating loops -/

/-- Closed form of a fold of guarded accumulations: each cell ends at its
initial value plus the sum of the contributions aimed at it. -/
theorem foldl_writeAdd_apply {α : Type} (dst : α → ℤ) (v : α → ℚ) :
    ∀ (L : List α) (s : ℤ → ℚ) (t : ℤ),
      (L.foldl (fun b e => writeAdd b (dst e) (v e)) s) t
        = s t + ((L.map fun e => if dst e = t then v e else 0).sum) := by
  intro L
  induction L with
  | nil => intro s t; simp
  | cons e L ih =>
    intro s t
    rw [List.foldl_cons, ih, List.map_cons, List.sum_cons]
    unfold writeAdd
    by_cases h : dst e = t
    · simp [h, eq_comm]; ring
    · have h2 : ¬ t = dst e := fun hh => h hh.symm
      simp [h, h2]

/-- A mapped sum over a duplicate-free list in which every element but one
maps to `0` collapses to the surviving element's value. -/
theorem list_sum_eq_single {α : Type} (F : α → ℚ) (e₀ : α) :
    ∀ (L : List α), L.Nodup → e₀ ∈ L → (∀ e ∈ L, e ≠ e₀ → F e = 0) →
      ((L.map F).sum) = F e₀ := by
  intro L
  induction L with
  | nil => intro _ h; simp at h
  | cons x L ih =>
    intro hnd hmem hz
    rw [List.map_cons, List.sum_cons]
    rcases List.mem_cons.1 hmem with rfl | hmem2
    · have hzero : ∀ y ∈ L.map F, y = 0 := by
        intro y hy
        obtain ⟨e, he, rfl⟩ := List.mem_map.1 hy
        exact hz e (List.mem_cons_of_mem _ he)
          (fun hee => (List.nodup_cons.1 hnd).1 (hee ▸ he))
      rw [List.sum_eq_zero hzero, add_zero]
    · have hx : F x = 0 := hz x (List.mem_cons_self x L)
        (fun hxe => (List.nodup_cons.1 hnd).1 (hxe ▸ hmem2))
      rw [hx, zero_add]
      exact ih (List.nodup_cons.1 hnd).2 hmem2
        (fun e he hne => hz e (List.mem_cons_of_mem _ he) hne)

/-- A fold of state-independent checked steps succeeds with the unchecked
result as soon as every step's check passes on every state. -/
theorem foldlM_eq_some_foldl {α σ : Type} (step : σ → α → σ)
    (stepChecked : σ → α → Option σ) :
    ∀ (L : List α), (∀ e ∈ L, ∀ s, stepChecked s e = some (step s e)) →
      ∀ s, L.foldlM stepChecked s = some (L.foldl step s) := by
  intro L
  induction L with
  | nil => intro _ s; rfl
  | cons e L ih =>
    intro h s
    rw [List.foldlM_cons, h e (List.mem_cons_self e L) s]
    exact ih (fun x hx => h x (List.mem_cons_of_mem _ hx)) (step s e)

/-! ## Membership and distinctness of the loop lists -/

theorem mem_loopTriples {nx ny nz a b c : ℕ} :
    (a, b, c) ∈ loopTriples nx ny nz ↔ a < nx ∧ b < ny ∧ c < nz := by
  simp only [loopTriples, List.mem_flatMap, List.mem_map, List.mem_range]
  constructor
  · rintro ⟨a', ha, b', hb, c', hc, h⟩
    obtain ⟨rfl, rfl, rfl⟩ : a' = a ∧ b' = b ∧ c' = c := by
      have h1 := congrArg Prod.fst h
      have h2 := congrArg (fun t => t.2.1) h
      have h3 := congrArg (fun t => t.2.2) h
      exact ⟨h1, h2, h3⟩
    exact ⟨ha, hb, hc⟩
  · rintro ⟨ha, hb, hc⟩
    exact ⟨a, ha, b, hb, c, hc, rfl⟩

theorem nodup_loopTriples (nx ny nz : ℕ) : (loopTriples nx ny nz).Nodup := by
  unfold loopTriples
  rw [List.nodup_flatMap]
  refine ⟨fun a _ => ?_, ?_⟩
  · rw [List.nodup_flatMap]
    refine ⟨fun b _ => ?_, ?_⟩
    · exact (List.nodup_range nz).map (fun c c' h => by
        have := congrArg (fun t : ℕ × ℕ × ℕ => t.2.2) h
        exact this)
    · refine List.Pairwise.imp ?_ (List.nodup_range ny)
      intro b b' hne
      simp only [Function.onFun, List.disjoint_left]
      rintro ⟨x, y, z⟩ hx hy
      simp only [List.mem_map, List.mem_range] at hx hy
      obtain ⟨c, _, hc⟩ := hx
      obtain ⟨c', _, hc'⟩ := hy
      have h1 := congrArg (fun t : ℕ × ℕ × ℕ => t.2.1) hc
      have h2 := congrArg (fun t : ℕ × ℕ × ℕ => t.2.1) hc'
      simp at h1 h2
      exact hne (h1 ▸ h2 ▸ rfl)
  · refine List.Pairwise.imp ?_ (List.nodup_range nx)
    intro a a' hne
    simp only [Function.onFun, List.disjoint_left]
    rintro ⟨x, y, z⟩ hx hy
    simp only [List.mem_flatMap, List.mem_map, List.mem_range] at hx hy
    obtain ⟨b, _, c, _, hc⟩ := hx
    obtain ⟨b', _, c', _, hc'⟩ := hy
    have h1 := congrArg (fun t : ℕ × ℕ × ℕ => t.1) hc
    have h2 := congrArg (fun t : ℕ × ℕ × ℕ => t.1) hc'
    simp at h1 h2
    exact hne (h1 ▸ h2 ▸ rfl)

theorem sum_map_flatMap {α β : Type} (l : List α) (f : α → List β) (F : β → ℚ) :
    (((l.flatMap f).map F).sum) = ((l.map fun a => (((f a).map F).sum)).sum) := by
  induction l with
  | nil => simp
  | cons x l ih => simp [List.flatMap_cons, List.map_append, List.sum_append, ih]

theorem list_range_map_sum (f : ℕ → ℚ) (G : ℕ) :
    (((List.range G).map f).sum) = ∑ j ∈ Finset.range G, f j := by
  induction G with
  | zero => simp
  | succ n ih =>
    rw [List.range_succ, List.map_append, List.sum_append, Finset.sum_range_succ, ih]
    simp

/-- In-range coordinates give an in-range flat index. -/
theorem flatIdx_lt {nx ny nz x y z : ℕ} (hx : x < nx) (hy : y < ny) (hz : z < nz) :
    flatIdx ny nz x y z < nx * ny * nz := by
  obtain ⟨nx', rfl⟩ : ∃ m, nx = m + 1 := ⟨nx - 1, by omega⟩
  obtain ⟨ny', rfl⟩ : ∃ m, ny = m + 1 := ⟨ny - 1, by omega⟩
  obtain ⟨nz', rfl⟩ : ∃ m, nz = m + 1 := ⟨nz - 1, by omega⟩
  unfold flatIdx
  have h1 : x ≤ nx' := by omega
  have h2 : y ≤ ny' := by omega
  have h3 : z ≤ nz' := by omega
  calc x * ((ny' + 1) * (nz' + 1)) + y * (nz' + 1) + z
      ≤ nx' * ((ny' + 1) * (nz' + 1)) + ny' * (nz' + 1) + nz' := by gcongr
    _ < (nx' + 1) * (ny' + 1) * (nz' + 1) := by ring_nf; omega

/-- An in-range flat combination over `ℤ`. -/
theorem flat_bounds {nx ny nz u v w : ℤ} (hu : 0 ≤ u) (hu2 : u < nx) (hv : 0 ≤ v)
    (hv2 : v < ny) (hw : 0 ≤ w) (hw2 : w < nz) :
    0 ≤ u * (ny * nz) + v * nz + w ∧ u * (ny * nz) + v * nz + w < nx * ny * nz := by
  have hny : (0 : ℤ) ≤ ny := le_trans hv (le_of_lt hv2)
  have hnz : (0 : ℤ) ≤ nz := le_trans hw (le_of_lt hw2)
  have h1 : (0 : ℤ) ≤ u * (ny * nz) := mul_nonneg hu (mul_nonneg hny hnz)
  have h2 : (0 : ℤ) ≤ v * nz := mul_nonneg hv hnz
  constructor
  · linarith
  · nlinarith [mul_le_mul_of_nonneg_right (by omega : u ≤ nx - 1) (mul_nonneg hny hnz),
      mul_le_mul_of_nonneg_right (by omega : v ≤ ny - 1) hnz]

/-- The roll destination of in-range coordinates is in `[0, nx*ny*nz)` when
the shift is nonnegative. -/
theorem roll_cur_idx_bounds {nx ny nz a b c : ℕ} {r : ℤ} (hr : 0 ≤ r) (ha : a < nx)
    (hb : b < ny) (hc : c < nz) :
    0 ≤ roll_cur_idx nx ny nz a b c r ∧ roll_cur_idx nx ny nz a b c r < nx * ny * nz := by
  have hnx : (0 : ℤ) < nx := by exact_mod_cast Nat.pos_of_ne_zero (by omega)
  have hny : (0 : ℤ) < ny := by exact_mod_cast Nat.pos_of_ne_zero (by omega)
  have hnz : (0 : ℤ) < nz := by exact_mod_cast Nat.pos_of_ne_zero (by omega)
  unfold roll_cur_idx
  have h := flat_bounds (@cMod_nonneg (a + r) nx (by omega)) (cMod_lt_of_pos _ hnx)
    (@cMod_nonneg (b + r) ny (by omega)) (cMod_lt_of_pos _ hny)
    (@cMod_nonneg (c + r) nz (by omega)) (cMod_lt_of_pos _ hnz)
  exact_mod_cast h

/-- The inner channel term: of all loop triples, only `(a, b, c)` aims at
the destination `roll_cur_idx nx ny nz a b c roll`. -/
theorem sumGrids_inner (nx ny nz : ℕ) (roll : ℤ) (grids : ℕ → ℤ → ℚ) (j : ℕ)
    {a b c : ℕ} (hr : 0 ≤ roll) (ha : a < nx) (hb : b < ny) (hc : c < nz)
    (F : ℕ × ℕ × ℕ × ℕ → ℚ)
    (hF : ∀ e : ℕ × ℕ × ℕ × ℕ, F e
      = if roll_cur_idx nx ny nz e.2.1 e.2.2.1 e.2.2.2 roll
          = roll_cur_idx nx ny nz a b c roll
        then grids e.1 (sumGridsSrc nx ny nz e.2.1 e.2.2.1 e.2.2.2) else 0) :
    ((((loopTriples nx ny nz).map fun t => (j, t)).map F).sum)
      = grids j (sumGridsSrc nx ny nz a b c) := by
  rw [List.map_map]
  have hres := list_sum_eq_single (F ∘ fun t => (j, t)) (a, b, c)
    (loopTriples nx ny nz) (nodup_loopTriples nx ny nz)
    (mem_loopTriples.2 ⟨ha, hb, hc⟩) ?_
  · rw [hres, Function.comp_apply, hF]
    simp
  · rintro ⟨x, y, z⟩ he hne
    obtain ⟨he1, he2, he3⟩ := mem_loopTriples.1 he
    have hcond : ¬ (roll_cur_idx nx ny nz x y z roll
        = roll_cur_idx nx ny nz a b c roll) := by
      intro hde
      obtain ⟨h1, h2, h3⟩ := roll_cur_idx_inj hr he1 he2 he3 ha hb hc hde
      exact hne (by simp [h1, h2, h3])
    rw [Function.comp_apply, hF]
    exact if_neg hcond

/-- The closed form of `sum_grids` at one orientation and one destination
cell: its previous contents plus the channel sum of the flipped source
cell. -/
theorem sum_gridsOrient_closed_form (G nx ny nz : ℕ) (roll : ℤ)
    (grids : ℕ → ℤ → ℚ) (buf : ℤ → ℚ) {a b c : ℕ} (hr : 0 ≤ roll) (ha : a < nx)
    (hb : b < ny) (hc : c < nz) :
    sum_gridsOrient G nx ny nz roll grids buf (roll_cur_idx nx ny nz a b c roll)
      = buf (roll_cur_idx nx ny nz a b c roll)
        + ∑ j ∈ Finset.range G, grids j (sumGridsSrc nx ny nz a b c) := by
  unfold sum_gridsOrient
  rw [show (sumGridsStep grids nx ny nz roll)
      = (fun s e => writeAdd s
          ((fun e : ℕ × ℕ × ℕ × ℕ => roll_cur_idx nx ny nz e.2.1 e.2.2.1 e.2.2.2 roll) e)
          ((fun e : ℕ × ℕ × ℕ × ℕ => grids e.1 (sumGridsSrc nx ny nz e.2.1 e.2.2.1 e.2.2.2)) e))
    from rfl]
  rw [foldl_writeAdd_apply]
  congr 1
  unfold sumGridsLoop
  rw [sum_map_flatMap, list_range_map_sum]
  apply Finset.sum_congr rfl
  intro j _
  exact sumGrids_inner nx ny nz roll grids j hr ha hb hc _ (fun e => rfl)

/-- With `roll_steps = 0`, the roll destination of in-range coordinates is
the plain flat index. -/
theorem roll_cur_idx_zero {nx ny nz a b c : ℕ} (ha : a < nx) (hb : b < ny)
    (hc : c < nz) :
    roll_cur_idx nx ny nz a b c 0 = ((flatIdx ny nz a b c : ℕ) : ℤ) := by
  unfold roll_cur_idx flatIdx
  rw [add_zero, add_zero, add_zero,
    cMod_eq_self (Int.natCast_nonneg a) (by exact_mod_cast ha),
    cMod_eq_self (Int.natCast_nonneg b) (by exact_mod_cast hb),
    cMod_eq_self (Int.natCast_nonneg c) (by exact_mod_cast hc)]
  push_cast
  ring

/-- Claim C5: with a single channel and `roll = 0`, `sum_grids` run on a
zero-initialised result buffer produces, for each orientation, exactly the
three-axis spatial reversal of that orientation's single input field. -/
theorem sum_grids_single_channel_reversal (nx ny nz : ℕ)
    (grids : ℕ → ℕ → ℤ → ℚ) (i : ℕ) {a b c : ℕ} (ha : a < nx) (hb : b < ny)
    (hc : c < nz) :
    sum_grids 1 nx ny nz 0 grids (fun _ _ => 0) i ((flatIdx ny nz a b c : ℕ) : ℤ)
      = grids i 0 ((flatIdx ny nz (nx - 1 - a) (ny - 1 - b) (nz - 1 - c) : ℕ) : ℤ) := by
  unfold sum_grids
  rw [← roll_cur_idx_zero ha hb hc,
    sum_gridsOrient_closed_form 1 nx ny nz 0 (grids i) (fun _ => 0) le_rfl ha hb hc]
  rw [Finset.sum_range_one]
  unfold sumGridsSrc
  simp

/-- Claim C5 witness at a concrete grid. -/
theorem sum_grids_single_channel_reversal_witness :
    sum_grids 1 2 2 2 0 (fun _ _ t => t) (fun _ _ => 0) 0 ((flatIdx 2 2 0 0 1 : ℕ) : ℤ)
      = (fun (_ _ : ℕ) (t : ℤ) => (t : ℚ)) 0 0 ((flatIdx 2 2 1 1 0 : ℕ) : ℤ) :=
  sum_grids_single_channel_reversal 2 2 2 (fun _ _ t => t) 0
    (by decide) (by decide) (by decide)

/-- Claim C9: `sum_grids` accumulates into the caller-supplied result buffer
without zeroing it — each destination cell ends at its prior contents plus
the channel-summed flipped-and-rolled contribution, and running `sum_grids`
twice on the same result buffer adds the contribution twice. -/
theorem sum_grids_accumulates (G nx ny nz : ℕ) (roll : ℤ)
    (grids : ℕ → ℕ → ℤ → ℚ) (result : ℕ → ℤ → ℚ) (i : ℕ) {a b c : ℕ}
    (hr : 0 ≤ roll) (ha : a < nx) (hb : b < ny) (hc : c < nz) :
    sum_grids G nx ny nz roll grids result i (roll_cur_idx nx ny nz a b c roll)
      = result i (roll_cur_idx nx ny nz a b c roll)
        + ∑ j ∈ Finset.range G, grids i j (sumGridsSrc nx ny nz a b c)
    ∧ sum_grids G nx ny nz roll grids (sum_grids G nx ny nz roll grids result) i
        (roll_cur_idx nx ny nz a b c roll)
      = result i (roll_cur_idx nx ny nz a b c roll)
        + 2 * ∑ j ∈ Finset.range G, grids i j (sumGridsSrc nx ny nz a b c) := by
  have h1 := sum_gridsOrient_closed_form G nx ny nz roll (grids i) (result i)
    hr ha hb hc
  refine ⟨h1, ?_⟩
  have h2 := sum_gridsOrient_closed_form G nx ny nz roll (grids i)
    (sum_grids G nx ny nz roll grids result i) hr ha hb hc
  unfold sum_grids at h2 ⊢
  rw [h2, h1]
  ring

/-- Claim C9 witness at a concrete grid. -/
theorem sum_grids_accumulates_witness :
    sum_grids 1 2 2 2 1 (fun _ _ t => t) (fun _ t => t) 0
        (roll_cur_idx 2 2 2 0 0 1 1)
      = (fun (_ : ℕ) (t : ℤ) => (t : ℚ)) 0 (roll_cur_idx 2 2 2 0 0 1 1)
        + ∑ j ∈ Finset.range 1, (fun (_ _ : ℕ) (t : ℤ) => (t : ℚ)) 0 j (sumGridsSrc 2 2 2 0 0 1)
    ∧ sum_grids 1 2 2 2 1 (fun _ _ t => t)
        (sum_grids 1 2 2 2 1 (fun _ _ t => t) (fun _ t => t)) 0
        (roll_cur_idx 2 2 2 0 0 1 1)
      = (fun (_ : ℕ) (t : ℤ) => (t : ℚ)) 0 (roll_cur_idx 2 2 2 0 0 1 1)
        + 2 * ∑ j ∈ Finset.range 1, (fun (_ _ : ℕ) (t : ℤ) => (t : ℚ)) 0 j (sumGridsSrc 2 2 2 0 0 1) :=
  sum_grids_accumulates 1 2 2 2 1 (fun _ _ t => t) (fun _ t => t) 0
    (by decide) (by decide) (by decide) (by decide)

/-! ## In-bounds facts for the guarded loops (claim C10) -/

theorem mem_sumGridsLoop {G nx ny nz : ℕ} {e : ℕ × ℕ × ℕ × ℕ} :
    e ∈ sumGridsLoop G nx ny nz ↔ e.1 < G ∧ e.2 ∈ loopTriples nx ny nz := by
  rcases e with ⟨j, t⟩
  simp only [sumGridsLoop, List.mem_flatMap, List.mem_map, List.mem_range]
  constructor
  · rintro ⟨j', hj, t', ht, h⟩
    have h1 : j' = j := congrArg Prod.fst h
    have h2 : t' = t := congrArg Prod.snd h
    exact ⟨h1 ▸ hj, h2 ▸ ht⟩
  · rintro ⟨hj, ht⟩
    exact ⟨j, hj, t, ht, rfl⟩

theorem mem_flipRollLoop {G N : ℕ} {e : ℕ × ℕ} :
    e ∈ flipRollLoop G N ↔ e.1 < G ∧ e.2 < N := by
  rcases e with ⟨j, k⟩
  simp only [flipRollLoop, List.mem_flatMap, List.mem_map, List.mem_range]
  constructor
  · rintro ⟨j', hj, k', hk, h⟩
    have h1 : j' = j := congrArg Prod.fst h
    have h2 : k' = k := congrArg Prod.snd h
    exact ⟨h1 ▸ hj, h2 ▸ hk⟩
  · rintro ⟨hj, hk⟩
    exact ⟨j, hj, k, hk, rfl⟩

/-- The source cell read by `sum_grids` is always in bounds for in-range
counters. -/
theorem sumGridsSrc_lt {nx ny nz a b c : ℕ} (ha : a < nx) (hb : b < ny)
    (hc : c < nz) : sumGridsSrc nx ny nz a b c < nx * ny * nz := by
  exact flatIdx_lt (by omega) (by omega) (by omega)

/-- Every step of `sum_grids`'s loop passes its bounds checks when the roll
shift is nonnegative. -/
theorem sumGridsStepChecked_ok {G nx ny nz : ℕ} {roll : ℤ} (hr : 0 ≤ roll)
    (grids : ℕ → ℤ → ℚ) {e : ℕ × ℕ × ℕ × ℕ} (he : e ∈ sumGridsLoop G nx ny nz)
    (s : ℤ → ℚ) :
    sumGridsStepChecked grids nx ny nz roll s e
      = some (sumGridsStep grids nx ny nz roll s e) := by
  obtain ⟨hj, ht⟩ := mem_sumGridsLoop.1 he
  rcases e with ⟨j, a, b, c⟩
  obtain ⟨ha, hb, hc⟩ := mem_loopTriples.1 ht
  obtain ⟨hd1, hd2⟩ := roll_cur_idx_bounds hr ha hb hc
  have hsrc : (sumGridsSrc nx ny nz a b c : ℤ) < ((nx * ny * nz : ℕ) : ℤ) := by
    exact_mod_cast sumGridsSrc_lt ha hb hc
  unfold sumGridsStepChecked readAt writeAddAt
  rw [if_pos ⟨Int.natCast_nonneg _, by exact_mod_cast hsrc⟩]
  rw [Option.some_bind]
  rw [if_pos ⟨hd1, by exact_mod_cast hd2⟩]
  rfl

/-- Every step of `flip_and_roll`'s loop passes its bounds checks when the
roll shift is nonnegative. -/
theorem flipRollStepChecked_ok {G nx ny nz : ℕ} {roll : ℤ} (hr : 0 ≤ roll)
    {e : ℕ × ℕ} (he : e ∈ flipRollLoop G (nx * ny * nz)) (s : ℤ → ℚ) :
    flipRollStepChecked G nx ny nz roll s e
      = some (flipRollStep nx ny nz roll s e) := by
  obtain ⟨hj, hk⟩ := mem_flipRollLoop.1 he
  rcases e with ⟨j, k⟩
  simp only at hj hk
  have hN : 0 < nx * ny * nz := by omega
  have hnz : 0 < nz := by
    rcases Nat.eq_zero_or_pos nz with h | h
    · rw [h, mul_zero] at hN; omega
    · exact h
  have hny : 0 < ny := by
    rcases Nat.eq_zero_or_pos ny with h | h
    · rw [h, mul_zero, zero_mul] at hN; omega
    · exact h
  have hnx : 0 < nx := by
    rcases Nat.eq_zero_or_pos nx with h | h
    · rw [h, zero_mul, zero_mul] at hN; omega
    · exact h
  have hx : k / (ny * nz) < nx := by
    rw [Nat.div_lt_iff_lt_mul (Nat.mul_pos hny hnz)]
    calc k < nx * ny * nz := hk
      _ = nx * (ny * nz) := by ring
  have hy : k % (ny * nz) / nz < ny := by
    rw [Nat.div_lt_iff_lt_mul hnz]
    calc k % (ny * nz) < ny * nz := Nat.mod_lt _ (Nat.mul_pos hny hnz)
      _ = ny * nz := rfl
  have hz : k % nz < nz := Nat.mod_lt _ hnz
  obtain ⟨hd1, hd2⟩ := roll_cur_idx_bounds hr hx hy hz
  have haddr : j * (nx * ny * nz) + k < G * (nx * ny * nz) := by
    have h1 : j * (nx * ny * nz) + k < j * (nx * ny * nz) + (nx * ny * nz) := by omega
    have h2 : j * (nx * ny * nz) + (nx * ny * nz) = (j + 1) * (nx * ny * nz) := by ring
    have h3 : (j + 1) * (nx * ny * nz) ≤ G * (nx * ny * nz) :=
      Nat.mul_le_mul_right _ (by omega)
    linarith
  unfold flipRollStepChecked readAt writeSetAt flipRollSrc
  rw [if_pos ⟨hd1, by exact_mod_cast hd2⟩]
  rw [Option.some_bind]
  rw [if_pos ⟨Int.natCast_nonneg _, by exact_mod_cast haddr⟩]
  rfl

/-- Claim C10: with a nonnegative `roll_steps`, every source and destination
index computed by `sum_grids` and by `flip_and_roll` stays inside
`[0, nx*ny*nz)` (the write of `flip_and_roll` inside its orientation
block), so the guarded embeddings succeed and agree with the unguarded
ones; the sign condition is needed because C's `%` returns negative
remainders for negative operands, as the concrete negative-shift run in the
last conjunct shows. -/
theorem sum_grids_flip_and_roll_in_bounds (G nx ny nz : ℕ) (roll : ℤ)
    (grids : ℕ → ℤ → ℚ) (result : ℤ → ℚ) (s : ℤ → ℚ) (hr : 0 ≤ roll) :
    sum_gridsOrientChecked G nx ny nz roll grids result
      = some (sum_gridsOrient G nx ny nz roll grids result)
    ∧ flip_and_rollOrientChecked G nx ny nz roll s
      = some (flip_and_rollOrient G nx ny nz roll s)
    ∧ sum_gridsOrientChecked 1 1 1 2 (-1) (fun _ _ => 0) (fun _ => 0) = none := by
  refine ⟨?_, ?_, ?_⟩
  · exact foldlM_eq_some_foldl _ _ _
      (fun e he s' => sumGridsStepChecked_ok hr grids he s') result
  · exact foldlM_eq_some_foldl _ _ _
      (fun e he s' => flipRollStepChecked_ok hr he s') s
  · rfl

/-- Claim C10 witness at a concrete nonnegative shift. -/
theorem sum_grids_flip_and_roll_in_bounds_witness :
    sum_gridsOrientChecked 1 1 1 2 3 (fun _ _ => 0) (fun _ => 0)
      = some (sum_gridsOrient 1 1 1 2 3 (fun _ _ => 0) (fun _ => 0))
    ∧ flip_and_rollOrientChecked 1 1 1 2 3 (fun _ => 0)
      = some (flip_and_rollOrient 1 1 1 2 3 (fun _ => 0))
    ∧ sum_gridsOrientChecked 1 1 1 2 (-1) (fun _ _ => 0) (fun _ => 0) = none :=
  sum_grids_flip_and_roll_in_bounds 1 1 1 2 3 (fun _ _ => 0) (fun _ => 0)
    (fun _ => 0) (by decide)

/-! ## `flip_and_roll` at shift `0` (claims C6, C7) -/

/-- Block-and-offset addresses are unique for in-range offsets. -/
theorem flat2_inj {N j k p q : ℕ} (hk : k < N) (hq : q < N)
    (h : j * N + k = p * N + q) : j = p ∧ k = q := by
  have h1 : (k + j * N) % N = (q + p * N) % N := by
    rw [show k + j * N = j * N + k from by ring, show q + p * N = p * N + q from by ring, h]
  rw [Nat.add_mul_mod_self_right, Nat.add_mul_mod_self_right,
    Nat.mod_eq_of_lt hk, Nat.mod_eq_of_lt hq] at h1
  subst h1
  have hN : 0 < N := by omega
  have h2 : j * N = p * N := by omega
  exact ⟨Nat.eq_of_mul_eq_mul_right hN h2, rfl⟩

theorem nodup_flipRollLoop (G N : ℕ) : (flipRollLoop G N).Nodup := by
  unfold flipRollLoop
  rw [List.nodup_flatMap]
  refine ⟨fun j _ => ?_, ?_⟩
  · exact (List.nodup_range N).map (fun k k' h => congrArg Prod.snd h)
  · refine List.Pairwise.imp ?_ (List.nodup_range G)
    intro j j' hne
    simp only [Function.onFun, List.disjoint_left]
    rintro ⟨a, b⟩ hx hy
    simp only [List.mem_map, List.mem_range] at hx hy
    obtain ⟨k, _, hk⟩ := hx
    obtain ⟨k', _, hk'⟩ := hy
    have h1 := congrArg Prod.fst hk
    have h2 := congrArg Prod.fst hk'
    simp at h1 h2
    exact hne (h1 ▸ h2 ▸ rfl)

/-- With shift `0` the rolled source address of flat cell `k` is `k`
itself. -/
theorem flipRollSrc_zero {nx ny nz k : ℕ} (hk : k < nx * ny * nz) :
    flipRollSrc nx ny nz 0 k = (k : ℤ) := by
  have hN : 0 < nx * ny * nz := by omega
  have hnz : 0 < nz := by
    rcases Nat.eq_zero_or_pos nz with h | h
    · rw [h, mul_zero] at hN; omega
    · exact h
  have hny : 0 < ny := by
    rcases Nat.eq_zero_or_pos ny with h | h
    · rw [h, mul_zero, zero_mul] at hN; omega
    · exact h
  have hx : k / (ny * nz) < nx := by
    rw [Nat.div_lt_iff_lt_mul (Nat.mul_pos hny hnz)]
    calc k < nx * ny * nz := hk
      _ = nx * (ny * nz) := by ring
  have hy : k % (ny * nz) / nz < ny := by
    rw [Nat.div_lt_iff_lt_mul hnz]
    exact Nat.mod_lt _ (Nat.mul_pos hny hnz)
  have hz : k % nz < nz := Nat.mod_lt _ hnz
  unfold flipRollSrc
  rw [roll_cur_idx_zero hx hy hz]
  unfold flatIdx
  have h1 := Nat.div_add_mod k (ny * nz)
  have h2 := Nat.div_add_mod (k % (ny * nz)) nz
  have h3 : k % (ny * nz) % nz = k % nz :=
    Nat.mod_mod_of_dvd k ⟨ny, by ring⟩
  have : k / (ny * nz) * (ny * nz) + k % (ny * nz) / nz * nz + k % nz = k := by
    rw [mul_comm (k / (ny * nz)) (ny * nz), mul_comm (k % (ny * nz) / nz) nz, ← h3]
    omega
  exact_mod_cast congrArg (fun m : ℕ => (m : ℤ)) this

/-- The shift-`0` run of `flip_and_roll`'s in-place loop: channel 0 is
rewritten with its own values so the low block never changes, and every
later channel is overwritten with channel 0's original data. -/
theorem flipRoll_zero_fold (nx ny nz : ℕ) (s₀ : ℤ → ℚ) :
    ∀ (L : List (ℕ × ℕ)) (s : ℤ → ℚ),
      (∀ t : ℤ, 0 ≤ t → t < ((nx * ny * nz : ℕ) : ℤ) → s t = s₀ t) →
      (∀ e ∈ L, e.2 < nx * ny * nz) →
      List.Pairwise (fun e e' : ℕ × ℕ =>
        e.1 * (nx * ny * nz) + e.2 ≠ e'.1 * (nx * ny * nz) + e'.2) L →
      (∀ t : ℤ, 0 ≤ t → t < ((nx * ny * nz : ℕ) : ℤ) →
          (L.foldl (flipRollStep nx ny nz 0) s) t = s₀ t)
      ∧ (∀ e ∈ L, (L.foldl (flipRollStep nx ny nz 0) s)
            ((e.1 * (nx * ny * nz) + e.2 : ℕ) : ℤ) = s₀ (e.2 : ℤ))
      ∧ (∀ t : ℤ, (∀ e ∈ L, t ≠ ((e.1 * (nx * ny * nz) + e.2 : ℕ) : ℤ)) →
          (L.foldl (flipRollStep nx ny nz 0) s) t = s t) := by
  intro L
  induction L with
  | nil =>
    intro s hlow _ _
    exact ⟨fun t h1 h2 => hlow t h1 h2, fun e he => absurd he (List.not_mem_nil e),
      fun t _ => rfl⟩
  | cons e L ih =>
    intro s hlow hbnd hpw
    rcases e with ⟨j, k⟩
    have hk : k < nx * ny * nz := hbnd (j, k) (List.mem_cons_self _ _)
    have hstep : flipRollStep nx ny nz 0 s (j, k)
        = writeSet s ((j * (nx * ny * nz) + k : ℕ) : ℤ) (s₀ (k : ℤ)) := by
      unfold flipRollStep
      rw [flipRollSrc_zero hk]
      rw [hlow (k : ℤ) (Int.natCast_nonneg k) (by exact_mod_cast hk)]
    have hlow2 : ∀ t : ℤ, 0 ≤ t → t < ((nx * ny * nz : ℕ) : ℤ) →
        (flipRollStep nx ny nz 0 s (j, k)) t = s₀ t := by
      intro t h1 h2
      rw [hstep]
      unfold writeSet
      by_cases ht : t = ((j * (nx * ny * nz) + k : ℕ) : ℤ)
      · rw [if_pos ht]
        have hjk : j * (nx * ny * nz) + k < nx * ny * nz := by
          rw [ht] at h2
          exact_mod_cast h2
        have hj0 : j = 0 := by
          by_contra hj
          have : 1 * (nx * ny * nz) ≤ j * (nx * ny * nz) :=
            Nat.mul_le_mul_right _ (by omega)
          omega
        rw [ht, hj0]
        simp
      · rw [if_neg ht]
        exact hlow t h1 h2
    obtain ⟨ihA, ihB, ihC⟩ := ih (flipRollStep nx ny nz 0 s (j, k)) hlow2
      (fun e he => hbnd e (List.mem_cons_of_mem _ he)) (List.Pairwise.of_cons hpw)
    refine ⟨?_, ?_, ?_⟩
    · intro t h1 h2
      rw [List.foldl_cons]
      exact ihA t h1 h2
    · rintro ⟨p, q⟩ hmem
      rw [List.foldl_cons]
      rcases List.mem_cons.1 hmem with heq | hmem2
      · obtain ⟨hp, hq⟩ : p = j ∧ q = k :=
          ⟨congrArg Prod.fst heq, congrArg Prod.snd heq⟩
        subst hp
        subst hq
        have hhead := (List.pairwise_cons.1 hpw).1
        have hne2 : ∀ e' ∈ L, ((p * (nx * ny * nz) + q : ℕ) : ℤ)
            ≠ ((e'.1 * (nx * ny * nz) + e'.2 : ℕ) : ℤ) := by
          intro e' he' hteq
          exact hhead e' he' (by exact_mod_cast hteq)
        rw [ihC _ hne2, hstep]
        unfold writeSet
        rw [if_pos rfl]
      · exact ihB (p, q) hmem2
    · intro t hne
      rw [List.foldl_cons]
      rw [ihC t (fun e he => hne e (List.mem_cons_of_mem _ he))]
      rw [hstep]
      unfold writeSet
      rw [if_neg (hne (j, k) (List.mem_cons_self _ _))]

theorem pairwise_addr_flipRollLoop (G N : ℕ) :
    List.Pairwise (fun e e' : ℕ × ℕ => e.1 * N + e.2 ≠ e'.1 * N + e'.2)
      (flipRollLoop G N) := by
  refine List.Pairwise.imp_of_mem ?_ (nodup_flipRollLoop G N)
  rintro ⟨j, k⟩ ⟨p, q⟩ he he' hne heq
  obtain ⟨_, hk⟩ := mem_flipRollLoop.1 he
  obtain ⟨_, hq⟩ := mem_flipRollLoop.1 he'
  obtain ⟨h1, h2⟩ := flat2_inj hk hq heq
  subst h1
  subst h2
  exact hne rfl

/-- Claim C6, counterexample: with two channels, shift `0` is not the
identity — `flip_and_roll` copies channel 0 over channel 1 (the C code's
`cur_arr` source pointer is the orientation block's start, i.e. channel 0,
for every channel).  Grid `1×1×1`, channel 0 holds `0`, channel 1 holds
`1`: after `flip_and_roll(grids, 0)` channel 1 holds `0`. -/
theorem flip_and_roll_zero_not_identity :
    flip_and_roll 2 1 1 1 0 (fun _ t => if t = 1 then (1 : ℚ) else 0) 0 1
      ≠ (fun (_ : ℕ) (t : ℤ) => if t = 1 then (1 : ℚ) else 0) 0 1 := by decide

/-- Claim C6 (amended): with shift `0`, `flip_and_roll` overwrites every
channel of each orientation with a copy of that orientation's channel-0
field; in particular it is the identity on channel 0, and on single-channel
batches. -/
theorem flip_and_roll_zero_broadcast (G nx ny nz : ℕ) (grids : ℕ → ℤ → ℚ)
    (i : ℕ) {j k : ℕ} (hj : j < G) (hk : k < nx * ny * nz) :
    flip_and_roll G nx ny nz 0 grids i ((j * (nx * ny * nz) + k : ℕ) : ℤ)
      = grids i (k : ℤ) := by
  unfold flip_and_roll flip_and_rollOrient
  have h := flipRoll_zero_fold nx ny nz (grids i) (flipRollLoop G (nx * ny * nz))
    (grids i) (fun t _ _ => rfl) (fun e he => (mem_flipRollLoop.1 he).2)
    (pairwise_addr_flipRollLoop G (nx * ny * nz))
  exact h.2.1 (j, k) (mem_flipRollLoop.2 ⟨hj, hk⟩)

/-- Claim C6 (amended) witness: channel 1 of a `1×1×1` two-channel block
receives channel 0's value. -/
theorem flip_and_roll_zero_broadcast_witness :
    flip_and_roll 2 1 1 1 0 (fun _ t => if t = 1 then (1 : ℚ) else 0) 0
        ((1 * (1 * 1 * 1) + 0 : ℕ) : ℤ)
      = (fun (_ : ℕ) (t : ℤ) => if t = 1 then (1 : ℚ) else 0) 0 ((0 : ℕ) : ℤ) :=
  flip_and_roll_zero_broadcast 2 1 1 1 (fun _ t => if t = 1 then (1 : ℚ) else 0) 0
    (by decide) (by decide)

/-! ## Composition of rolls (claim C7) -/

/-- Shifting by `r % n` agrees with shifting by `r`, for nonnegative
operands. -/
theorem cMod_add_cMod {x r n : ℤ} (hx : 0 ≤ x) (hr : 0 ≤ r) (hn : 0 ≤ n) :
    cMod (x + cMod r n) n = cMod (x + r) n := by
  rcases eq_or_lt_of_le hn with h0 | hpos
  · rw [← h0]
    unfold cMod
    rw [Int.tmod_zero, Int.tmod_zero, Int.tmod_zero]
  · rw [cMod_eq_emod hr hn]
    have hrn : 0 ≤ r % n := Int.emod_nonneg r (by omega)
    rw [cMod_eq_emod (by omega) hn, cMod_eq_emod (by omega) hn]
    have hsplit : x + r = x + r % n + n * (r / n) := by
      have := Int.ediv_add_emod r n
      linarith
    rw [hsplit, Int.add_mul_emod_self_left]

/-- Composing two nonnegative per-axis shifts adds them. -/
theorem cMod_comp {a r1 r2 n : ℤ} (ha : 0 ≤ a) (h1 : 0 ≤ r1) (h2 : 0 ≤ r2)
    (hn : 0 ≤ n) : cMod (cMod (a + r2) n + r1) n = cMod (a + (r1 + r2)) n := by
  rcases eq_or_lt_of_le hn with h0 | hpos
  · rw [← h0]
    unfold cMod
    rw [Int.tmod_zero, Int.tmod_zero, Int.tmod_zero]
    ring
  · have hinner : cMod (a + r2) n = (a + r2) % n := cMod_eq_emod (by omega) hn
    rw [hinner]
    have hrn : 0 ≤ (a + r2) % n := Int.emod_nonneg _ (by omega)
    rw [cMod_eq_emod (by omega) hn, cMod_eq_emod (by omega) hn]
    have hsplit : a + (r1 + r2) = (a + r2) % n + r1 + n * ((a + r2) / n) := by
      have := Int.ediv_add_emod (a + r2) n
      linarith
    rw [hsplit, Int.add_mul_emod_self_left]

/-- Claim C7, counterexample: at the array level, rolling twice by `1` is
not rolling by `(1+1) mod 2` on a `2×2×2` single-channel grid, because the
C loop reads the block it is overwriting (an impulse field is wiped by the
in-place traversal). -/
theorem roll_composition_counterexample :
    flip_and_rollOrient 1 2 2 2 1
        (flip_and_rollOrient 1 2 2 2 1 (fun t => if t = 1 then (1 : ℚ) else 0)) 1
      ≠ flip_and_rollOrient 1 2 2 2 (cMod (1 + 1) 2)
        (fun t => if t = 1 then (1 : ℚ) else 0) 1 := by decide

/-- Claim C7 (amended): additive composition holds for the roll index map
(`roll_cur_idx`, the remapping `flip_and_roll` computes): composing
nonnegative shifts `r2` then `r1` equals the single shift `r1 + r2`; and at
the array level, on a cubic grid a nonnegative shift `r` may be reduced
modulo the axis length `L` without changing `flip_and_roll`'s result.  The
array-level composition law itself fails (see the counterexample) because
the traversal is in place. -/
theorem roll_composition_amended (Lc G nx ny nz : ℕ) (s : ℤ → ℚ) (a b c : ℕ)
    {r1 r2 r : ℤ} (hr1 : 0 ≤ r1) (hr2 : 0 ≤ r2) (hr : 0 ≤ r) :
    roll_cur_idx nx ny nz (cMod (a + r2) nx) (cMod (b + r2) ny) (cMod (c + r2) nz) r1
      = roll_cur_idx nx ny nz a b c (r1 + r2)
    ∧ flip_and_rollOrient G Lc Lc Lc r s
      = flip_and_rollOrient G Lc Lc Lc (cMod r Lc) s := by
  constructor
  · unfold roll_cur_idx
    rw [cMod_comp (Int.natCast_nonneg a) hr1 hr2 (Int.natCast_nonneg nx),
      cMod_comp (Int.natCast_nonneg b) hr1 hr2 (Int.natCast_nonneg ny),
      cMod_comp (Int.natCast_nonneg c) hr1 hr2 (Int.natCast_nonneg nz)]
  · unfold flip_and_rollOrient
    have hstep : flipRollStep Lc Lc Lc r = flipRollStep Lc Lc Lc (cMod r Lc) := by
      funext s' e
      unfold flipRollStep flipRollSrc roll_cur_idx
      rw [cMod_add_cMod (Int.natCast_nonneg _) hr (Int.natCast_nonneg Lc),
        cMod_add_cMod (Int.natCast_nonneg _) hr (Int.natCast_nonneg Lc),
        cMod_add_cMod (Int.natCast_nonneg _) hr (Int.natCast_nonneg Lc)]
    rw [hstep]

/-- Claim C7 (amended) witness at concrete shifts and coordinates. -/
theorem roll_composition_amended_witness :
    roll_cur_idx 2 2 2 (cMod ((1 : ℕ) + 2) 2) (cMod ((0 : ℕ) + 2) 2)
        (cMod ((1 : ℕ) + 2) 2) 1
      = roll_cur_idx 2 2 2 (1 : ℕ) (0 : ℕ) (1 : ℕ) (1 + 2)
    ∧ flip_and_rollOrient 1 2 2 2 3 (fun t => (t : ℚ))
      = flip_and_rollOrient 1 2 2 2 (cMod 3 2) (fun t => (t : ℚ)) :=
  roll_composition_amended 2 1 2 2 2 (fun t => (t : ℚ)) 1 0 1
    (by decide) (by decide) (by decide)

/-! ## Boundary validation (claim C3) -/

/-- Claim C3, counterexample: mismatched spatial dimensions are NOT
rejected.  A `(1,4,4,4)` float32 receptor against a `(1,1,8,8,8)` float32
result passes every check of `py_fft_correlate_batch` (ndim, dtype and
channel count are all it validates), and the kernel is invoked with the
receptor's `4×4×4` spatial shape on the `8×8×8` result buffer. -/
theorem py_fft_correlate_batch_spatial_mismatch_accepted :
    (py_fft_correlate_batch
        ⟨[1, 4, 4, 4], NPY_FLOAT32, fun _ => 0⟩
        ⟨[1, 1, 8, 8, 8], NPY_FLOAT32, fun _ => 0⟩
        (fun _ => 0) (fun _ => 0)).isOk = true := rfl

/-- Claim C3 (amended): the wrapper rejects wrong rank or dtype and
mismatched channel counts with a `TypeError` before `fft_correlate_batch`
is invoked, and then neither array is modified (the error carries no
updated buffer); mismatched spatial dimensions are not checked. -/
theorem py_fft_correlate_batch_rejects_channel_mismatch
    (recep_grid result : NpArray) (h4 : recep_grid.dims.length = 4)
    (hft : recep_grid.dtype = NPY_FLOAT32) (h5 : result.dims.length = 5)
    (hft2 : result.dtype = NPY_FLOAT32)
    (hmm : ¬ recep_grid.dims.getD 0 0 = result.dims.getD 1 0)
    (gR gL : ℕ → ℝ) :
    py_fft_correlate_batch recep_grid result gR gL
      = Except.error "Expected same number of grids for both receptor and result arrays." := by
  have hcheck : pyShapeCheck recep_grid result
      = some "Expected same number of grids for both receptor and result arrays." := by
    unfold pyShapeCheck
    rw [if_neg (not_not_intro ⟨h4, hft⟩), if_neg (not_not_intro ⟨h5, hft2⟩),
      if_pos hmm]
  unfold py_fft_correlate_batch
  rw [hcheck]

/-- Claim C3 (amended) witness: channel counts 2 vs 3. -/
theorem py_fft_correlate_batch_rejects_channel_mismatch_witness :
    py_fft_correlate_batch
        ⟨[2, 4, 4, 4], NPY_FLOAT32, fun _ => 0⟩
        ⟨[1, 3, 4, 4, 4], NPY_FLOAT32, fun _ => 0⟩
        (fun _ => 0) (fun _ => 0)
      = Except.error "Expected same number of grids for both receptor and result arrays." :=
  py_fft_correlate_batch_rejects_channel_mismatch
    ⟨[2, 4, 4, 4], NPY_FLOAT32, fun _ => 0⟩
    ⟨[1, 3, 4, 4, 4], NPY_FLOAT32, fun _ => 0⟩
    (by decide) (by decide) (by decide) (by decide) (by decide)
    (fun _ => 0) (fun _ => 0)

/-! ## Selector lemmas (claims C2, C8) -/

/-- The C comparator induces exactly the descending-by-score order: `p`
sorts no later than `q` iff `comparator p q ≤ 0`. -/
theorem comparator_nonpos_iff (p q : ScoreIndexPair) :
    comparator p q ≤ 0 ↔ scoreDesc p q := by
  unfold comparator scoreDesc
  rcases lt_trichotomy p.score q.score with h | h | h
  · rw [if_pos h, if_neg (asymm h)]
    exact iff_of_false (by norm_num) (not_le.2 h)
  · rw [if_neg (by rw [h]; exact lt_irrefl _), if_neg (by rw [h]; exact lt_irrefl _)]
    exact iff_of_true (by norm_num) (le_of_eq h.symm)
  · rw [if_neg (asymm h), if_pos h]
    exact iff_of_true (by norm_num) (le_of_lt h)

/-- In a descending-sorted buffer the head score dominates every entry. -/
theorem head_dominates {heap : List ScoreIndexPair} (hne : heap ≠ [])
    (hs : heap.Sorted scoreDesc) : ∀ p ∈ heap, p.score ≤ heap.headI.score := by
  rcases heap with _ | ⟨h₀, t⟩
  · exact absurd rfl hne
  · intro p hp
    rcases List.mem_cons.1 hp with rfl | hpt
    · exact le_refl _
    · exact (List.pairwise_cons.1 hs).1 p hpt

/-- Removing a smaller submultiset exposes the extra element. -/
theorem multiset_sub_expose {A T : Multiset ℚ} {x : ℚ} (h : x ::ₘ T ≤ A) :
    A - T = x ::ₘ (A - (x ::ₘ T)) := by
  have hx : x ∈ A - T := by
    rw [← Multiset.count_pos, Multiset.count_sub]
    have := Multiset.count_le_of_le x h
    rw [Multiset.count_cons_self] at this
    omega
  have h1 : A - (x ::ₘ T) = (A - T).erase x := by
    rw [← Multiset.singleton_add, add_comm, ← tsub_tsub, Multiset.sub_singleton]
  rw [h1, Multiset.cons_erase hx]

/-- The fill phase: running the first `N` stream entries over an
`N`-element buffer overwrites it slot by slot and sorts the result
descending. -/
theorem sel_fill (N : ℕ) :
    ∀ (B : List ℚ) (k : ℕ) (g : List ScoreIndexPair), g.length = N →
      k + B.length = N → 0 < B.length →
      (B.enumFrom k).foldl (selStep N) g
        = sortDesc (g.take k ++ streamPairsFrom k B) := by
  intro B
  induction B with
  | nil => intro k g _ _ hpos; simp at hpos
  | cons b B ih =>
    intro k g hg hk _
    rw [List.enumFrom_cons, List.foldl_cons]
    have hkN : k < N := by simp at hk; omega
    by_cases hB : B.length = 0
    · have hBnil : B = [] := List.length_eq_zero.1 hB
      subst hBnil
      have hlast : k = N - 1 := by simp at hk; omega
      have hstep : selStep N g (k, b) = sortDesc (g.set k ⟨k, b⟩) := by
        unfold selStep
        rw [if_pos hkN, if_pos hlast]
      rw [hstep]
      simp only [List.enumFrom_nil, List.foldl_nil]
      congr 1
      rw [List.set_eq_take_cons_drop _ (hg ▸ hkN)]
      rw [List.drop_eq_nil_of_le (by omega)]
      simp [streamPairsFrom]
    · have hknot : ¬ k = N - 1 := by simp at hk; omega
      have hstep : selStep N g (k, b) = g.set k ⟨k, b⟩ := by
        unfold selStep
        rw [if_pos hkN, if_neg hknot]
      rw [hstep]
      rw [ih (k + 1) (g.set k ⟨k, b⟩) (by rw [List.length_set]; exact hg)
        (by simp at hk ⊢; omega) (by omega)]
      congr 1
      rw [List.set_eq_take_cons_drop _ (hg ▸ hkN)]
      have htk : (g.take k ++ ⟨k, b⟩ :: g.drop (k + 1)).take (k + 1)
          = g.take k ++ [(⟨k, b⟩ : ScoreIndexPair)] := by
        have hlen : (g.take k).length = k := by
          rw [List.length_take]
          omega
        rw [show k + 1 = (g.take k).length + 1 by omega]
        rw [List.take_append]
        simp
      rw [htk]
      simp [streamPairsFrom, List.enumFrom_cons]

theorem selStep_preserves (scores : List ℚ) (N m : ℕ) (hm : N ≤ m)
    {s : ℚ} (hs : scores.get? m = some s) {heap : List ScoreIndexPair}
    (hinv : SelInv scores N m heap) :
    SelInv scores N (m + 1) (selStep N heap (m, s)) := by
  obtain ⟨h1, h2, h3, h4, h5⟩ := hinv
  have htake : scores.take (m + 1) = scores.take m ++ [s] := by
    rw [List.take_succ, ← List.get?_eq_getElem?, hs]
    rfl
  have hstep0 : selStep N heap (m, s)
      = if s < heap.headI.score then sortDesc (heap.set 0 ⟨m, s⟩) else heap := by
    unfold selStep
    rcases Nat.eq_zero_or_pos N with hN0 | hN0
    · subst hN0
      rw [if_neg (by omega)]
    · rw [if_neg (by omega)]
  rcases heap with _ | ⟨h₀, t⟩
  · have hnil : selStep N [] (m, s) = [] := by
      rw [hstep0]
      split <;> rfl
    rw [hnil]
    refine ⟨by simp [List.Sorted], by simpa using h2, ?_, ?_, ?_⟩
    · simp only [List.map_nil]
      exact Multiset.zero_le _
    · intro x hx p hp
      simp at hp
    · intro p hp
      simp at hp
  rw [hstep0]
  by_cases hlt : s < (h₀ :: t).headI.score
  · rw [if_pos hlt]
    rw [List.set_cons_zero]
    have hperm : List.Perm (sortDesc (⟨m, s⟩ :: t)) ((⟨m, s⟩ : ScoreIndexPair) :: t) :=
      List.perm_insertionSort scoreDesc _
    have hmem : ∀ p, p ∈ sortDesc (⟨m, s⟩ :: t) ↔ p ∈ (⟨m, s⟩ : ScoreIndexPair) :: t :=
      fun p => hperm.mem_iff
    have hscores : ((sortDesc (⟨m, s⟩ :: t)).map fun p => p.score : Multiset ℚ)
        = s ::ₘ ((t.map fun p => p.score : List ℚ) : Multiset ℚ) := by
      rw [Multiset.coe_eq_coe.2 (hperm.map fun p => p.score)]
      rfl
    have hdom : ∀ p ∈ sortDesc (⟨m, s⟩ :: t), p.score ≤ h₀.score := by
      intro p hp
      rcases List.mem_cons.1 ((hmem p).1 hp) with rfl | hpt
      · exact le_of_lt hlt
      · exact head_dominates (by simp) h1 p (List.mem_cons_of_mem _ hpt)
    refine ⟨List.sorted_insertionSort _ _, ?_, ?_, ?_, ?_⟩
    · rw [hperm.length_eq]
      simpa using h2
    · rw [hscores, htake]
      have ht : ((t.map fun p => p.score : List ℚ) : Multiset ℚ)
          ≤ ((scores.take m : List ℚ) : Multiset ℚ) :=
        le_trans (Multiset.le_cons_self _ _) h3
      calc s ::ₘ ((t.map fun p => p.score : List ℚ) : Multiset ℚ)
          ≤ s ::ₘ ((scores.take m : List ℚ) : Multiset ℚ) := Multiset.cons_le_cons s ht
        _ = ((scores.take m : List ℚ) : Multiset ℚ) + {s} := by
          rw [← Multiset.singleton_add, add_comm]
        _ = _ := by rw [← Multiset.coe_singleton, Multiset.coe_add]
    · intro x hx p hp
      rw [hscores, htake] at hx
      rw [← Multiset.coe_add, Multiset.coe_singleton] at hx
      rw [show ((scores.take m : List ℚ) : Multiset ℚ) + {s}
          = s ::ₘ ((scores.take m : List ℚ) : Multiset ℚ) from by
        rw [← Multiset.singleton_add, add_comm]] at hx
      rw [show (s ::ₘ ((t.map fun p => p.score : List ℚ) : Multiset ℚ))
          = {s} + ((t.map fun p => p.score : List ℚ) : Multiset ℚ) from
        (Multiset.singleton_add _ _).symm] at hx
      rw [show (s ::ₘ ((scores.take m : List ℚ) : Multiset ℚ))
          = {s} + ((scores.take m : List ℚ) : Multiset ℚ) from
        (Multiset.singleton_add _ _).symm] at hx
      rw [add_tsub_add_eq_tsub_left] at hx
      have hexp : ((scores.take m : List ℚ) : Multiset ℚ)
            - ((t.map fun p => p.score : List ℚ) : Multiset ℚ)
          = h₀.score ::ₘ (((scores.take m : List ℚ) : Multiset ℚ)
            - (h₀.score ::ₘ ((t.map fun p => p.score : List ℚ) : Multiset ℚ))) := by
        refine multiset_sub_expose ?_
        have := h3
        rw [show (((h₀ :: t).map fun p => p.score : List ℚ) : Multiset ℚ)
            = h₀.score ::ₘ ((t.map fun p => p.score : List ℚ) : Multiset ℚ) from rfl] at this
        exact this
      rw [hexp] at hx
      rcases Multiset.mem_cons.1 hx with rfl | hx2
      · exact hdom p hp
      · have hh₀ : h₀.score ≤ x := by
          refine h4 x ?_ h₀ (List.mem_cons_self _ _)
          exact hx2
        exact le_trans (hdom p hp) hh₀
    · intro p hp
      rcases List.mem_cons.1 ((hmem p).1 hp) with rfl | hpt
      · exact hs
      · exact h5 p (List.mem_cons_of_mem _ hpt)
  · rw [if_neg hlt]
    refine ⟨h1, h2, ?_, ?_, h5⟩
    · rw [htake, ← Multiset.coe_add]
      exact le_trans h3 (self_le_add_right _ _)
    · intro x hx p hp
      rw [htake, ← Multiset.coe_add, Multiset.coe_singleton,
        ← tsub_add_eq_add_tsub h3] at hx
      rcases Multiset.mem_add.1 hx with hx2 | hx2
      · exact h4 x hx2 p hp
      · rw [Multiset.mem_singleton] at hx2
        subst hx2
        exact le_trans (head_dominates (by simp) h1 p hp) (not_lt.1 hlt)

theorem sel_stream (scores : List ℚ) (N : ℕ) :
    ∀ (B : List ℚ) (m : ℕ) (heap : List ScoreIndexPair), N ≤ m →
      scores.drop m = B → SelInv scores N m heap →
      SelInv scores N (m + B.length) ((B.enumFrom m).foldl (selStep N) heap) := by
  intro B
  induction B with
  | nil => intro m heap _ _ hinv; simpa using hinv
  | cons b B ih =>
    intro m heap hm hdrop hinv
    rw [List.enumFrom_cons, List.foldl_cons]
    have hget : scores.get? m = some b := by
      have h0 := congrArg (fun l : List ℚ => l.get? 0) hdrop
      simp only [List.get?_eq_getElem?] at h0 ⊢
      rw [List.getElem?_drop] at h0
      simpa using h0
    have hdrop2 : scores.drop (m + 1) = B := by
      have h0 := congrArg List.tail hdrop
      rw [List.tail_drop] at h0
      simpa using h0
    have hnext := selStep_preserves scores N m hm hget hinv
    have hres := ih (m + 1) _ (by omega) hdrop2 hnext
    rw [show m + (b :: B).length = m + 1 + B.length from by simp; omega]
    exact hres

/-- The kept scores of a full, sorted, minimum-dominating buffer are exactly
the `N` lowest of the stream: the buffer reversed, followed by the sorted
discards, rebuilds the full ascending sort. -/
theorem sel_extract (S : List ℚ) (N : ℕ) (heap : List ScoreIndexPair)
    (h1 : heap.Sorted scoreDesc) (h2 : heap.length = N)
    (h3 : ((heap.map fun p => p.score : List ℚ) : Multiset ℚ) ≤ (S : Multiset ℚ))
    (h4 : ∀ x ∈ ((S : Multiset ℚ) - ((heap.map fun p => p.score : List ℚ) : Multiset ℚ)),
        ∀ p ∈ heap, p.score ≤ x) :
    ((heap.map fun p => p.score : List ℚ) : Multiset ℚ) = ↑((sortAsc S).take N) := by
  set M := heap.map fun p => p.score with hM
  set D := Multiset.sort (· ≤ ·) ((S : Multiset ℚ) - (M : Multiset ℚ)) with hD
  have hsorted_hs : M.reverse.Sorted (· ≤ ·) := by
    rw [List.Sorted, List.pairwise_reverse, hM, List.pairwise_map]
    exact h1.imp (fun h => h)
  have hsorted_D : D.Sorted (· ≤ ·) := Multiset.sort_sorted _ _
  have hcross : ∀ a ∈ M.reverse, ∀ b ∈ D, a ≤ b := by
    intro a ha b hb
    rw [List.mem_reverse, hM] at ha
    obtain ⟨p, hp, rfl⟩ := List.mem_map.1 ha
    exact h4 b ((Multiset.mem_sort _).1 hb) p hp
  have hsorted_L : (M.reverse ++ D).Sorted (· ≤ ·) := by
    rw [List.Sorted, List.pairwise_append]
    exact ⟨hsorted_hs, hsorted_D, hcross⟩
  have hperm : sortAsc S = M.reverse ++ D := by
    refine List.eq_of_perm_of_sorted ?_ (List.sorted_insertionSort _ _) hsorted_L
    rw [← Multiset.coe_eq_coe]
    have e1 : ((sortAsc S : List ℚ) : Multiset ℚ) = (S : Multiset ℚ) :=
      Multiset.coe_eq_coe.2 (List.perm_insertionSort _ S)
    have e2 : ((M.reverse ++ D : List ℚ) : Multiset ℚ)
        = (M : Multiset ℚ) + ((S : Multiset ℚ) - (M : Multiset ℚ)) := by
      rw [← Multiset.coe_add]
      congr 1
      · exact Multiset.coe_eq_coe.2 (List.reverse_perm M)
      · exact Multiset.sort_eq _ _
    rw [e1, e2, add_tsub_cancel_of_le h3]
  rw [hperm]
  rw [List.take_left' (by rw [List.length_reverse, hM, List.length_map]; exact h2)]
  exact Multiset.coe_eq_coe.2 (List.reverse_perm M).symm

theorem streamPairsFrom_map_score (k : ℕ) (B : List ℚ) :
    (streamPairsFrom k B).map (fun p => p.score) = B := by
  unfold streamPairsFrom
  rw [List.map_map]
  exact List.enumFrom_map_snd k B

/-- After the whole stream, the selector buffer satisfies the invariant
relative to the full score list. -/
theorem get_top_n_scores_invariant (scores : List ℚ) (N : ℕ)
    (garbage : List ScoreIndexPair) (hN : 0 < N) (hn : N ≤ scores.length)
    (hg : garbage.length = N) :
    SelInv scores N scores.length (get_top_n_scores scores N garbage) := by
  unfold get_top_n_scores
  have hlenA : (scores.take N).length = N := by rw [List.length_take]; omega
  rw [show scores.enum = (scores.take N).enum ++ (scores.drop N).enumFrom N from by
    conv_lhs => rw [(List.take_append_drop N scores).symm]
    rw [List.enum_append, hlenA]]
  rw [List.foldl_append]
  have hfill : ((scores.take N).enum).foldl (selStep N) garbage
      = sortDesc (streamPairsFrom 0 (scores.take N)) := by
    have hf := sel_fill N (scores.take N) 0 garbage hg (by omega) (by omega)
    rw [show (scores.take N).enum = (scores.take N).enumFrom 0 from rfl, hf]
    congr 1
  have hpermP : List.Perm (sortDesc (streamPairsFrom 0 (scores.take N)))
      (streamPairsFrom 0 (scores.take N)) := List.perm_insertionSort scoreDesc _
  have hscoresP : (((sortDesc (streamPairsFrom 0 (scores.take N))).map
        fun p => p.score : List ℚ) : Multiset ℚ)
      = ((scores.take N : List ℚ) : Multiset ℚ) := by
    rw [Multiset.coe_eq_coe.2 (hpermP.map fun p => p.score),
      streamPairsFrom_map_score]
  have hbase : SelInv scores N N (sortDesc (streamPairsFrom 0 (scores.take N))) := by
    refine ⟨List.sorted_insertionSort _ _, ?_, ?_, ?_, ?_⟩
    · rw [hpermP.length_eq]
      unfold streamPairsFrom
      rw [List.length_map, List.enumFrom_length, hlenA]
    · rw [hscoresP]
    · intro x hx p hp
      rw [hscoresP, tsub_self] at hx
      exact absurd hx (Multiset.not_mem_zero x)
    · intro p hp
      have hp2 := hpermP.mem_iff.1 hp
      unfold streamPairsFrom at hp2
      obtain ⟨e, he, rfl⟩ := List.mem_map.1 hp2
      rcases e with ⟨i, v⟩
      rw [List.mk_mem_enumFrom_iff_le_and_getElem?_sub] at he
      obtain ⟨_, hA⟩ := he
      simp only [Nat.sub_zero] at hA
      have hiN : i < N := by
        obtain ⟨h, _⟩ := List.getElem?_eq_some_iff.1 hA
        rw [hlenA] at h
        exact h
      rw [List.get?_eq_getElem?]
      rw [← List.getElem?_take_of_lt hiN]
      exact hA
  have hstream := sel_stream scores N (scores.drop N) N
    (sortDesc (streamPairsFrom 0 (scores.take N))) (le_refl N) rfl hbase
  rw [show N + (scores.drop N).length = scores.length from by
    rw [List.length_drop]; omega] at hstream
  rw [hfill]
  exact hstream

/-- Claim C2, counterexample: on the stream `[5, 5, 0]` with capacity 2 the
two lowest entries are the `0` and one of the tied `5`s, but the selector
keeps index 1, not the earlier-seen index 0 — when a strictly better score
arrives, the replaced slot is the front of the descending buffer, which
holds the earliest of the tied worst entries. -/
theorem get_top_n_scores_tie_counterexample :
    (∀ p ∈ get_top_n_scores [5, 5, 0] 2 [⟨0, 0⟩, ⟨0, 0⟩], p.index ≠ 0)
    ∧ (∃ p ∈ get_top_n_scores [5, 5, 0] 2 [⟨0, 0⟩, ⟨0, 0⟩], p.score = 5) := by
  decide

/-- Claim C2 (amended): for a stream of at least `N` scores and capacity
`0 < N` (with arbitrary contents in the freshly `malloc`ed buffer),
`get_top_n_scores` returns entries whose scores are exactly the `N` lowest
of the stream (verified against a full sort), each entry records a true
`(index, score)` pair of the stream, and an equal-scoring later entry never
replaces a kept one (the replacement test is strict `<`); which index
survives among entries tied at the worst kept score is not the
earliest-seen one, however. -/
theorem get_top_n_scores_lowest (scores : List ℚ) (N : ℕ)
    (garbage : List ScoreIndexPair) (hN : 0 < N) (hn : N ≤ scores.length)
    (hg : garbage.length = N) :
    (((get_top_n_scores scores N garbage).map fun p => p.score : List ℚ) : Multiset ℚ)
        = ↑((sortAsc scores).take N)
    ∧ (∀ p ∈ get_top_n_scores scores N garbage, scores.get? p.index = some p.score)
    ∧ (∀ (heap : List ScoreIndexPair) (i : ℕ) (s : ℚ), N ≤ i →
        ¬ s < heap.headI.score → selStep N heap (i, s) = heap) := by
  obtain ⟨h1, h2, h3, h4, h5⟩ := get_top_n_scores_invariant scores N garbage hN hn hg
  rw [List.take_length] at h3 h4
  refine ⟨sel_extract scores N _ h1 h2 h3 h4, h5, ?_⟩
  intro heap i s hi hlt
  unfold selStep
  rw [if_neg (by omega), if_neg hlt]

/-- Claim C2 (amended) witness on the stream `[3, 1, 2]` with capacity 2. -/
theorem get_top_n_scores_lowest_witness :
    ((((get_top_n_scores [3, 1, 2] 2 [⟨0, 0⟩, ⟨0, 0⟩]).map
          fun p => p.score : List ℚ) : Multiset ℚ)
        = ↑((sortAsc [3, 1, 2]).take 2))
    ∧ (∀ p ∈ get_top_n_scores [3, 1, 2] 2 [⟨0, 0⟩, ⟨0, 0⟩],
        [(3 : ℚ), 1, 2].get? p.index = some p.score)
    ∧ (∀ (heap : List ScoreIndexPair) (i : ℕ) (s : ℚ), 2 ≤ i →
        ¬ s < heap.headI.score → selStep 2 heap (i, s) = heap) :=
  get_top_n_scores_lowest [3, 1, 2] 2 [⟨0, 0⟩, ⟨0, 0⟩]
    (by decide) (by decide) (by decide)

/-- Claim C8, counterexample: with fewer stream entries than the capacity
(`n < N`) the build sort never runs and the output is the raw
fill-order buffer (plus leftover `malloc` contents), which is not
descending: stream `[1, 2]` with capacity 3 yields scores `1, 2, …`. -/
theorem get_top_n_scores_order_counterexample :
    ¬ (get_top_n_scores [1, 2] 3 [⟨0, 0⟩, ⟨0, 0⟩, ⟨0, 0⟩]).Sorted scoreDesc := by
  decide

/-- Claim C8 (amended): for a stream of at least `N` scores and capacity
`0 < N`, the selector's output is ordered descending by score, with the
worst kept entry (the maximal score) first. -/
theorem get_top_n_scores_descending (scores : List ℚ) (N : ℕ)
    (garbage : List ScoreIndexPair) (hN : 0 < N) (hn : N ≤ scores.length)
    (hg : garbage.length = N) :
    (get_top_n_scores scores N garbage).Sorted scoreDesc
    ∧ ∀ p ∈ get_top_n_scores scores N garbage,
        p.score ≤ (get_top_n_scores scores N garbage).headI.score := by
  obtain ⟨h1, h2, _, _, _⟩ := get_top_n_scores_invariant scores N garbage hN hn hg
  refine ⟨h1, head_dominates ?_ h1⟩
  intro hnil
  rw [hnil] at h2
  simp at h2
  omega

/-- Claim C8 (amended) witness on the stream `[3, 1, 2]` with capacity 2. -/
theorem get_top_n_scores_descending_witness :
    (get_top_n_scores [3, 1, 2] 2 [⟨0, 0⟩, ⟨0, 0⟩]).Sorted scoreDesc
    ∧ ∀ p ∈ get_top_n_scores [3, 1, 2] 2 [⟨0, 0⟩, ⟨0, 0⟩],
        p.score ≤ (get_top_n_scores [3, 1, 2] 2 [⟨0, 0⟩, ⟨0, 0⟩]).headI.score :=
  get_top_n_scores_descending [3, 1, 2] 2 [⟨0, 0⟩, ⟨0, 0⟩]
    (by decide) (by decide) (by decide)

/-! ## Roots of unity: the character `chi` (claims C1, C4) -/

theorem chi_natCast (n : ℕ) [NeZero n] (m : ℕ) :
    chi n ((m : ℕ) : ZMod n) = Complex.exp (2 * Real.pi * Complex.I * m / n) := by
  unfold chi
  rw [ZMod.val_natCast]
  rw [Complex.exp_eq_exp_iff_exists_int]
  refine ⟨-((m / n : ℕ) : ℤ), ?_⟩
  have hn : (n : ℂ) ≠ 0 := Nat.cast_ne_zero.2 (NeZero.ne n)
  have hm : (m : ℂ) = (n : ℂ) * ((m / n : ℕ) : ℂ) + ((m % n : ℕ) : ℂ) := by
    exact_mod_cast congrArg (fun k : ℕ => (k : ℂ)) (Nat.div_add_mod m n).symm
  rw [Int.cast_neg, Int.cast_natCast]
  field_simp
  linear_combination (-(2 * (Real.pi : ℂ) * Complex.I)) * hm

theorem chi_zero (n : ℕ) [NeZero n] : chi n 0 = 1 := by
  unfold chi
  rw [ZMod.val_zero]
  simp

theorem chi_add (n : ℕ) [NeZero n] (a b : ZMod n) :
    chi n (a + b) = chi n a * chi n b := by
  have hab : a + b = ((ZMod.val a + ZMod.val b : ℕ) : ZMod n) := by
    rw [Nat.cast_add, ZMod.natCast_rightInverse a, ZMod.natCast_rightInverse b]
  rw [hab, chi_natCast]
  unfold chi
  rw [← Complex.exp_add]
  congr 1
  have hn : (n : ℂ) ≠ 0 := Nat.cast_ne_zero.2 (NeZero.ne n)
  push_cast
  ring

theorem chi_pow (n : ℕ) [NeZero n] (m : ℕ) (a : ZMod n) :
    chi n ((m : ZMod n) * a) = chi n a ^ m := by
  induction m with
  | zero => simp [chi_zero]
  | succ m ih =>
    have : (((m + 1 : ℕ) : ZMod n)) * a = (m : ZMod n) * a + a := by
      push_cast
      ring
    rw [this, chi_add, ih, pow_succ]

theorem chi_eq_one_iff (n : ℕ) [NeZero n] (a : ZMod n) : chi n a = 1 ↔ a = 0 := by
  constructor
  · intro h
    unfold chi at h
    have hv : (ZMod.val a : ℕ) = ZMod.val a := rfl
    generalize hgen : (ZMod.val a : ℕ) = v at h
    rw [Complex.exp_eq_one_iff] at h
    obtain ⟨k, hk⟩ := h
    have hn : (n : ℂ) ≠ 0 := Nat.cast_ne_zero.2 (NeZero.ne n)
    have h2pi : (2 * (Real.pi : ℂ) * Complex.I) ≠ 0 :=
      mul_ne_zero (mul_ne_zero two_ne_zero
        (Complex.ofReal_ne_zero.2 Real.pi_ne_zero)) Complex.I_ne_zero
    have hval : ((v : ℕ) : ℂ) = (k : ℂ) * (n : ℂ) := by
      refine mul_left_cancel₀ h2pi ?_
      field_simp at hk
      linear_combination hk
    have hvalZ : ((v : ℕ) : ℤ) = k * n := by exact_mod_cast hval
    have hlt : ((v : ℕ) : ℤ) < (n : ℤ) := by
      rw [← hgen]
      exact_mod_cast ZMod.val_lt a
    have hdvd : ((n : ℕ) : ℤ) ∣ ((v : ℕ) : ℤ) := ⟨k, by rw [hvalZ]; ring⟩
    have hnpos : (0 : ℤ) < (n : ℕ) := by
      exact_mod_cast Nat.pos_of_ne_zero (NeZero.ne n)
    have h0 := eq_zero_of_dvd_of_abs_lt hdvd (by omega) hlt
    have hva : ZMod.val a = 0 := by
      rw [hgen]
      exact_mod_cast h0
    exact (ZMod.val_eq_zero a).1 hva
  · intro h
    rw [h, chi_zero]

theorem chi_sum (n : ℕ) [NeZero n] (d : ZMod n) :
    ∑ k : ZMod n, chi n (k * d) = if d = 0 then (n : ℂ) else 0 := by
  by_cases hd : d = 0
  · rw [if_pos hd, hd]
    rw [Finset.sum_congr rfl (fun k _ => by rw [mul_zero, chi_zero])]
    rw [Finset.sum_const, Finset.card_univ, ZMod.card]
    simp
  · rw [if_neg hd]
    have hne : chi n d ≠ 1 := fun h => hd ((chi_eq_one_iff n d).1 h)
    have hre : ∀ k : ZMod n, chi n (k * d) = chi n d ^ ZMod.val k := by
      intro k
      rw [show k * d = ((ZMod.val k : ℕ) : ZMod n) * d from by
        rw [ZMod.natCast_rightInverse k]]
      exact chi_pow n (ZMod.val k) d
    rw [Finset.sum_congr rfl (fun k _ => hre k)]
    rw [show (∑ k : ZMod n, chi n d ^ ZMod.val k)
        = ∑ m ∈ Finset.range n, chi n d ^ m from by
      refine Finset.sum_nbij' (fun k : ZMod n => ZMod.val k)
        (fun m : ℕ => ((m : ℕ) : ZMod n)) ?_ ?_ ?_ ?_ ?_
      · intro a _
        exact Finset.mem_range.2 (ZMod.val_lt a)
      · intro m _
        exact Finset.mem_univ _
      · intro a _
        exact ZMod.natCast_rightInverse a
      · intro m hm
        exact ZMod.val_cast_of_lt (Finset.mem_range.1 hm)
      · intro a _
        rfl]
    rw [geom_sum_eq hne n]
    have hpow : chi n d ^ n = 1 := by
      rw [← chi_pow, ZMod.natCast_self, zero_mul, chi_zero]
    rw [hpow, sub_self, zero_div]

theorem chi_neg (n : ℕ) [NeZero n] (a : ZMod n) : chi n (-a) = (chi n a)⁻¹ := by
  refine eq_inv_of_mul_eq_one_right ?_
  rw [← chi_add, add_neg_cancel, chi_zero]

theorem chi_conj (n : ℕ) [NeZero n] (a : ZMod n) :
    (starRingEnd ℂ) (chi n a) = chi n (-a) := by
  rw [chi_neg]
  unfold chi
  rw [← Complex.exp_conj, ← Complex.exp_neg]
  congr 1
  rw [map_div₀]
  simp only [map_mul, Complex.conj_I, Complex.conj_ofReal, map_natCast,
    map_ofNat]
  ring

/-! ## The 3D pairing character and the DFT (claims C1, C4) -/

section PairingLemmas

variable {nx ny nz : ℕ} [NeZero nx] [NeZero ny] [NeZero nz]

theorem pairing_add (k a b : GridIdx nx ny nz) :
    pairing k (a + b) = pairing k a * pairing k b := by
  unfold pairing
  simp only [Prod.fst_add, Prod.snd_add, mul_add, chi_add]
  ring

theorem pairing_conj (k a : GridIdx nx ny nz) :
    (starRingEnd ℂ) (pairing k a) = pairing k (-a) := by
  unfold pairing
  rw [map_mul, map_mul, chi_conj, chi_conj, chi_conj]
  simp only [Prod.fst_neg, Prod.snd_neg, mul_neg]

theorem pairing_neg_left (k a : GridIdx nx ny nz) :
    pairing (-k) a = (starRingEnd ℂ) (pairing k a) := by
  rw [pairing_conj]
  unfold pairing
  simp only [Prod.fst_neg, Prod.snd_neg, neg_mul, mul_neg]

theorem pairing_sum (d : GridIdx nx ny nz) :
    ∑ k : GridIdx nx ny nz, pairing k d
      = if d = 0 then ((nx * ny * nz : ℕ) : ℂ) else 0 := by
  rcases d with ⟨d1, d2, d3⟩
  have hinner : ∀ k1 : ZMod nx,
      (∑ k23 : ZMod ny × ZMod nz, pairing ((k1, k23) : GridIdx nx ny nz) (d1, d2, d3))
        = chi nx (k1 * d1) *
          ((∑ k2 : ZMod ny, chi ny (k2 * d2)) * (∑ k3 : ZMod nz, chi nz (k3 * d3))) := by
    intro k1
    rw [Fintype.sum_prod_type]
    calc ∑ k2 : ZMod ny, ∑ k3 : ZMod nz,
          pairing ((k1, k2, k3) : GridIdx nx ny nz) (d1, d2, d3)
        = ∑ k2 : ZMod ny, ∑ k3 : ZMod nz,
            chi nx (k1 * d1) * (chi ny (k2 * d2) * chi nz (k3 * d3)) := by
          refine Finset.sum_congr rfl fun k2 _ => Finset.sum_congr rfl fun k3 _ => ?_
          unfold pairing
          ring
      _ = chi nx (k1 * d1) * ∑ k2 : ZMod ny, ∑ k3 : ZMod nz,
            chi ny (k2 * d2) * chi nz (k3 * d3) := by
          rw [Finset.mul_sum]
          refine Finset.sum_congr rfl fun k2 _ => ?_
          rw [Finset.mul_sum]
      _ = chi nx (k1 * d1) *
            ((∑ k2 : ZMod ny, chi ny (k2 * d2)) * (∑ k3 : ZMod nz, chi nz (k3 * d3))) := by
          rw [Finset.sum_mul_sum]
  rw [Fintype.sum_prod_type]
  rw [Finset.sum_congr rfl (fun k1 _ => hinner k1)]
  rw [← Finset.sum_mul, chi_sum, chi_sum, chi_sum]
  by_cases h1 : d1 = 0 <;> by_cases h2 : d2 = 0 <;> by_cases h3 : d3 = 0 <;>
    simp [h1, h2, h3, Prod.mk_eq_zero]
  ring

theorem conj_dft_real (f : GridIdx nx ny nz → ℝ) (k : GridIdx nx ny nz) :
    (starRingEnd ℂ) (dft (fun i => (f i : ℂ)) k)
      = ∑ a : GridIdx nx ny nz, (f a : ℂ) * pairing k a := by
  unfold dft
  rw [map_sum]
  refine Finset.sum_congr rfl fun a _ => ?_
  rw [map_mul, Complex.conj_conj, Complex.conj_ofReal]

theorem dft_real_neg (f : GridIdx nx ny nz → ℝ) (k : GridIdx nx ny nz) :
    dft (fun i => (f i : ℂ)) (-k) = (starRingEnd ℂ) (dft (fun i => (f i : ℂ)) k) := by
  rw [conj_dft_real]
  unfold dft
  refine Finset.sum_congr rfl fun a _ => ?_
  rw [pairing_neg_left, Complex.conj_conj]

/-- The correlation theorem for the unnormalised DFT pair: summing the
scaled conjugate-product spectrum against the inverse characters gives the
cyclic spatial cross-correlation. -/
theorem dft_correlation (r l : GridIdx nx ny nz → ℝ) (j : GridIdx nx ny nz) :
    ∑ k : GridIdx nx ny nz,
        ((starRingEnd ℂ) (dft (fun i => (r i : ℂ)) k) * dft (fun i => (l i : ℂ)) k
          * ((1 / (nx * ny * nz : ℝ) : ℝ) : ℂ)) * pairing k j
      = ((bruteCorrelate r l j : ℝ) : ℂ) := by
  have hker : ∀ k a b : GridIdx nx ny nz,
      (r a : ℂ) * pairing k a * ((l b : ℂ) * (starRingEnd ℂ) (pairing k b))
          * ((1 / (nx * ny * nz : ℝ) : ℝ) : ℂ) * pairing k j
        = (r a : ℂ) * (l b : ℂ) * ((1 / (nx * ny * nz : ℝ) : ℝ) : ℂ)
          * pairing k (a - b + j) := by
    intro k a b
    rw [pairing_conj]
    rw [show a - b + j = a + -b + j from by rw [sub_eq_add_neg]]
    rw [pairing_add, pairing_add]
    ring
  calc ∑ k : GridIdx nx ny nz,
        ((starRingEnd ℂ) (dft (fun i => (r i : ℂ)) k) * dft (fun i => (l i : ℂ)) k
          * ((1 / (nx * ny * nz : ℝ) : ℝ) : ℂ)) * pairing k j
      = ∑ k : GridIdx nx ny nz, ∑ a : GridIdx nx ny nz, ∑ b : GridIdx nx ny nz,
          (r a : ℂ) * (l b : ℂ) * ((1 / (nx * ny * nz : ℝ) : ℝ) : ℂ)
            * pairing k (a - b + j) := by
        refine Finset.sum_congr rfl fun k _ => ?_
        rw [conj_dft_real]
        rw [show dft (fun i => (l i : ℂ)) k
            = ∑ b : GridIdx nx ny nz, (l b : ℂ) * (starRingEnd ℂ) (pairing k b)
          from rfl]
        rw [Finset.sum_mul_sum]
        rw [Finset.sum_mul, Finset.sum_mul]
        refine Finset.sum_congr rfl fun a _ => ?_
        rw [Finset.sum_mul, Finset.sum_mul]
        exact Finset.sum_congr rfl fun b _ => hker k a b
    _ = ∑ a : GridIdx nx ny nz, ∑ b : GridIdx nx ny nz,
          (r a : ℂ) * (l b : ℂ) * ((1 / (nx * ny * nz : ℝ) : ℝ) : ℂ)
            * (if a - b + j = 0 then ((nx * ny * nz : ℕ) : ℂ) else 0) := by
        rw [Finset.sum_comm]
        refine Finset.sum_congr rfl fun a _ => ?_
        rw [Finset.sum_comm]
        refine Finset.sum_congr rfl fun b _ => ?_
        rw [← Finset.mul_sum, pairing_sum]
    _ = ∑ a : GridIdx nx ny nz,
          (r a : ℂ) * (l (a + j) : ℂ) * ((1 / (nx * ny * nz : ℝ) : ℝ) : ℂ)
            * ((nx * ny * nz : ℕ) : ℂ) := by
        refine Finset.sum_congr rfl fun a _ => ?_
        have hcond : ∀ b : GridIdx nx ny nz, (a - b + j = 0) ↔ (b = a + j) := by
          intro b
          rw [sub_add_eq_add_sub, sub_eq_zero]
          exact ⟨fun h => h.symm, fun h => h.symm⟩
        simp only [hcond, mul_ite, mul_zero]
        rw [Fintype.sum_ite_eq']
    _ = ((bruteCorrelate r l j : ℝ) : ℂ) := by
        have hscale : ((1 / (nx * ny * nz : ℝ) : ℝ) : ℂ) * ((nx * ny * nz : ℕ) : ℂ) = 1 := by
          have h1 : (nx : ℂ) ≠ 0 := Nat.cast_ne_zero.2 (NeZero.ne nx)
          have h2 : (ny : ℂ) ≠ 0 := Nat.cast_ne_zero.2 (NeZero.ne ny)
          have h3 : (nz : ℂ) ≠ 0 := Nat.cast_ne_zero.2 (NeZero.ne nz)
          push_cast
          field_simp
        calc ∑ a : GridIdx nx ny nz,
              (r a : ℂ) * (l (a + j) : ℂ) * ((1 / (nx * ny * nz : ℝ) : ℝ) : ℂ)
                * ((nx * ny * nz : ℕ) : ℂ)
            = ∑ a : GridIdx nx ny nz, (r a : ℂ) * (l (a + j) : ℂ)
                * (((1 / (nx * ny * nz : ℝ) : ℝ) : ℂ) * ((nx * ny * nz : ℕ) : ℂ)) := by
              refine Finset.sum_congr rfl fun a _ => ?_
              ring
          _ = ∑ a : GridIdx nx ny nz, (r a : ℂ) * (l (a + j) : ℂ) := by
              rw [hscale]
              refine Finset.sum_congr rfl fun a _ => ?_
              rw [mul_one]
          _ = ((bruteCorrelate r l j : ℝ) : ℂ) := by
              unfold bruteCorrelate
              push_cast
              rfl

omit [NeZero nx] [NeZero ny] in
/-- The Hermitian extension of the restriction of a Hermitian-symmetric
full spectrum rebuilds the full spectrum. -/
theorem hermExt_restrict (X : GridIdx nx ny nz → ℂ)
    (hX : ∀ k, X (-k) = (starRingEnd ℂ) (X k)) (k : GridIdx nx ny nz) :
    hermExt (fun h => X (toFull h)) k = X k := by
  unfold hermExt
  split
  case isTrue h =>
    show X (toFull (k.1, k.2.1, ⟨ZMod.val k.2.2, Nat.lt_succ_of_le h⟩)) = X k
    unfold toFull
    have hcast : ((ZMod.val k.2.2 : ℕ) : ZMod nz) = k.2.2 :=
      ZMod.natCast_rightInverse k.2.2
    show X (k.1, k.2.1, ((ZMod.val k.2.2 : ℕ) : ZMod nz)) = X k
    rw [hcast]
  case isFalse h =>
    show (starRingEnd ℂ)
        (X (toFull (-k.1, -k.2.1, ⟨nz - ZMod.val k.2.2, by
          have := ZMod.val_lt k.2.2
          omega⟩))) = X k
    unfold toFull
    have hval : ZMod.val k.2.2 ≤ nz := le_of_lt (ZMod.val_lt _)
    have hcast : ((nz - ZMod.val k.2.2 : ℕ) : ZMod nz) = -k.2.2 := by
      rw [Nat.cast_sub hval, ZMod.natCast_self, ZMod.natCast_rightInverse k.2.2,
        zero_sub]
    show (starRingEnd ℂ)
        (X (-k.1, -k.2.1, ((nz - ZMod.val k.2.2 : ℕ) : ZMod nz))) = X k
    rw [hcast]
    rw [show ((-k.1, -k.2.1, -k.2.2) : GridIdx nx ny nz) = -k from rfl]
    rw [hX k, Complex.conj_conj]

/-- The spectrum `fft_correlate_batch` hands to the inverse transform is
Hermitian-symmetric, so FFTW's half-spectrum extension reconstructs it
exactly. -/
theorem hermExt_correlSpectrum (r l : GridIdx nx ny nz → ℝ) (k : GridIdx nx ny nz) :
    hermExt (correlSpectrum r l) k
      = (starRingEnd ℂ) (dft (fun i => (r i : ℂ)) k) * dft (fun i => (l i : ℂ)) k
        * ((1 / (nx * ny * nz : ℝ) : ℝ) : ℂ) := by
  have hherm : ∀ k' : GridIdx nx ny nz,
      (starRingEnd ℂ) (dft (fun i => (r i : ℂ)) (-k')) * dft (fun i => (l i : ℂ)) (-k')
          * ((1 / (nx * ny * nz : ℝ) : ℝ) : ℂ)
        = (starRingEnd ℂ)
            ((starRingEnd ℂ) (dft (fun i => (r i : ℂ)) k') * dft (fun i => (l i : ℂ)) k'
              * ((1 / (nx * ny * nz : ℝ) : ℝ) : ℂ)) := by
    intro k'
    simp only [dft_real_neg, map_mul, Complex.conj_conj, Complex.conj_ofReal]
  have hcollapse := hermExt_restrict
    (fun k' => (starRingEnd ℂ) (dft (fun i => (r i : ℂ)) k') * dft (fun i => (l i : ℂ)) k'
      * ((1 / (nx * ny * nz : ℝ) : ℝ) : ℂ)) hherm k
  exact hcollapse

omit [NeZero nx] [NeZero ny] in
/-- A pointwise-zero half-spectrum has zero Hermitian extension. -/
theorem hermExt_zero_spectrum (X : HalfIdx nx ny nz → ℂ) (hX : ∀ h, X h = 0)
    (k : GridIdx nx ny nz) : hermExt X k = 0 := by
  unfold hermExt
  split
  · rw [hX]
  · rw [hX, map_zero]

/-- The inverse transform of a pointwise-zero half-spectrum is zero. -/
theorem c2r_zero_spectrum (X : HalfIdx nx ny nz → ℂ) (hX : ∀ h, X h = 0)
    (j : GridIdx nx ny nz) : c2r X j = 0 := by
  unfold c2r
  rw [Finset.sum_congr rfl (fun k _ => by
    rw [hermExt_zero_spectrum X hX k, zero_mul])]
  simp

/-- The forward transform of an all-zeros field is zero. -/
theorem r2c_zeros (k : HalfIdx nx ny nz) : r2c (fun _ => (0 : ℝ)) k = 0 := by
  unfold r2c dft
  simp

/-- Every element of the one-point residue ring is zero. -/
theorem zmod_one_eq_zero (a : ZMod 1) : a = 0 := by
  haveI : NeZero (1 : ℕ) := ⟨one_ne_zero⟩
  have h := ZMod.val_lt a
  have h0 : ZMod.val a = 0 := by omega
  calc a = ((ZMod.val a : ℕ) : ZMod 1) := (ZMod.natCast_rightInverse a).symm
    _ = ((0 : ℕ) : ZMod 1) := by rw [h0]
    _ = 0 := Nat.cast_zero

/-- On the `1×1×1` grid every character pairing is `1`. -/
theorem pairing_triv (k j : GridIdx 1 1 1) : pairing k j = 1 := by
  unfold pairing
  rw [zmod_one_eq_zero (k.1 * j.1), zmod_one_eq_zero (k.2.1 * j.2.1),
    zmod_one_eq_zero (k.2.2 * j.2.2), @chi_zero 1 ⟨one_ne_zero⟩]
  ring

/-- The forward transform of the all-ones field on the `1×1×1` grid is `1`. -/
theorem r2c_ones (k : HalfIdx 1 1 1) :
    @r2c 1 1 1 ⟨one_ne_zero⟩ ⟨one_ne_zero⟩ ⟨one_ne_zero⟩ (fun _ => (1 : ℝ)) k
      = 1 := by
  haveI : NeZero (1 : ℕ) := ⟨one_ne_zero⟩
  unfold r2c dft
  simp [pairing_triv, ZMod.card]

/-- Claim C1 (amended): `FFTW_MEASURE` planning (source lines 94-95) clobbers
the channel-0 receptor field and the `(0, 0)` candidate block with
unspecified planner residue before any data is read, so for every channel
`c ≠ 0` the kernel leaves in each `(orientation, c)` buffer exactly the
direct brute-force cyclic cross-correlation of the original candidate field
with the original channel-`c` target field, while every buffer — channel 0
included — holds the exact brute-force correlation of the post-planning
(clobbered) fields.  The real-arithmetic model is exact, so the `c ≠ 0`
result is within any floating-point tolerance of the brute-force
reference; channel-0 outputs are computed from destroyed inputs. -/
theorem fft_correlate_batch_matches_brute {G O : ℕ}
    (recep_grid : Fin G → GridIdx nx ny nz → ℝ)
    (result : Fin O → Fin G → GridIdx nx ny nz → ℝ)
    (gR gL : GridIdx nx ny nz → ℝ) (o : Fin O) (c : Fin G)
    (j : GridIdx nx ny nz) (hc : (c : ℕ) ≠ 0) :
    fft_correlate_batch recep_grid result gR gL o c j
      = bruteCorrelate (recep_grid c) (result o c) j
    ∧ fft_correlate_batch recep_grid result gR gL o c j
      = bruteCorrelate (planClobberRecep recep_grid gR c)
          (planClobberResult result gL o c) j := by
  have hgen : fft_correlate_batch recep_grid result gR gL o c j
      = bruteCorrelate (planClobberRecep recep_grid gR c)
          (planClobberResult result gL o c) j := by
    unfold fft_correlate_batch c2r
    rw [Finset.sum_congr rfl (fun k _ => by
      rw [hermExt_correlSpectrum (planClobberRecep recep_grid gR c)
        (planClobberResult result gL o c) k])]
    rw [dft_correlation]
    exact Complex.ofReal_re _
  refine ⟨?_, hgen⟩
  rw [hgen]
  have hclr : planClobberRecep recep_grid gR c = recep_grid c := by
    simp only [planClobberRecep]
    rw [if_neg hc]
  have hcll : planClobberResult result gL o c = result o c := by
    simp only [planClobberResult]
    rw [if_neg (fun hco => hc hco.2)]
  rw [hclr, hcll]

/-- Claim C1 (amended) witness at a concrete `1×1×1` two-channel instance
with channel `c = 1`. -/
theorem fft_correlate_batch_matches_brute_witness :
    (((1 : Fin 2) : ℕ) ≠ 0)
    ∧ (@fft_correlate_batch 1 1 1 ⟨one_ne_zero⟩ ⟨one_ne_zero⟩ ⟨one_ne_zero⟩ 2 1
          (fun _ _ => 1) (fun _ _ _ => 1) (fun _ => 0) (fun _ => 0) 0 1 0
        = @bruteCorrelate 1 1 1 ⟨one_ne_zero⟩ ⟨one_ne_zero⟩ ⟨one_ne_zero⟩
            (fun _ => 1) (fun _ => 1) 0
      ∧ @fft_correlate_batch 1 1 1 ⟨one_ne_zero⟩ ⟨one_ne_zero⟩ ⟨one_ne_zero⟩ 2 1
          (fun _ _ => 1) (fun _ _ _ => 1) (fun _ => 0) (fun _ => 0) 0 1 0
        = @bruteCorrelate 1 1 1 ⟨one_ne_zero⟩ ⟨one_ne_zero⟩ ⟨one_ne_zero⟩
            (@planClobberRecep 1 1 1 2 (fun _ _ => 1) (fun _ => 0) 1)
            (@planClobberResult 1 1 1 2 1 (fun _ _ _ => 1) (fun _ => 0) 0 1) 0) :=
  ⟨by decide, @fft_correlate_batch_matches_brute 1 1 1 ⟨one_ne_zero⟩
    ⟨one_ne_zero⟩ ⟨one_ne_zero⟩ 2 1 (fun _ _ => 1) (fun _ _ _ => 1)
    (fun _ => 0) (fun _ => 0) 0 1 0 (by decide)⟩

/-- Claim C1, counterexample to the original statement: on a `1×1×1`
single-channel, single-orientation batch of all-ones fields, the
`FFTW_MEASURE` planning clobber (source lines 94-95) with zeroed planner
residue makes the channel-0 output `0`, while the brute-force
cross-correlation of the original fields is `1`: the program's channel-0
outputs are not the correlation of its original inputs. -/
theorem fft_correlate_batch_clobber_counterexample :
    @fft_correlate_batch 1 1 1 ⟨one_ne_zero⟩ ⟨one_ne_zero⟩ ⟨one_ne_zero⟩ 1 1
        (fun _ _ => 1) (fun _ _ _ => 1) (fun _ => 0) (fun _ => 0) 0 0 0
      ≠ @bruteCorrelate 1 1 1 ⟨one_ne_zero⟩ ⟨one_ne_zero⟩ ⟨one_ne_zero⟩
          (fun _ => 1) (fun _ => 1) 0 := by
  haveI : NeZero (1 : ℕ) := ⟨one_ne_zero⟩
  have hL : @fft_correlate_batch 1 1 1 ⟨one_ne_zero⟩ ⟨one_ne_zero⟩
      ⟨one_ne_zero⟩ 1 1 (fun _ _ => 1) (fun _ _ _ => 1) (fun _ => 0)
      (fun _ => 0) 0 0 0 = 0 := by
    unfold fft_correlate_batch
    refine c2r_zero_spectrum _ (fun h => ?_) 0
    unfold correlSpectrum planClobberRecep
    rw [if_pos (show ((0 : Fin 1) : ℕ) = 0 from rfl), r2c_zeros]
    simp
  have hR : @bruteCorrelate 1 1 1 ⟨one_ne_zero⟩ ⟨one_ne_zero⟩ ⟨one_ne_zero⟩
      (fun _ => (1 : ℝ)) (fun _ => 1) 0 = 1 := by
    unfold bruteCorrelate
    simp [ZMod.card]
  rw [hL, hR]
  norm_num

/-- Claim C4 (amended): for every channel `c ≠ 0` and every orientation, the
pointwise step of `fft_correlate_batch` computes
`S_cand[o][k] = conj(S_target[k]) * S_cand[o][k] * scale` with
`scale = 1/(nx*ny*nz)` at every index of the half-spectrum — `S_target`,
`S_cand` being the transforms of the *original* fields, the `FFTW_MEASURE`
planning clobber not touching channels `c ≠ 0` — the half-spectrum has
exactly `nx*ny*(nz/2+1)` points, and the result buffer is the inverse
transform of that spectrum (the pointwise product happens before the
inverse transform overwrites the candidate buffer). -/
theorem fft_correlate_batch_pointwise_step {G O : ℕ}
    (recep_grid : Fin G → GridIdx nx ny nz → ℝ)
    (result : Fin O → Fin G → GridIdx nx ny nz → ℝ)
    (gR gL : GridIdx nx ny nz → ℝ) (o : Fin O) (c : Fin G)
    (hc : (c : ℕ) ≠ 0) :
    (∀ h : HalfIdx nx ny nz,
        correlSpectrum (planClobberRecep recep_grid gR c)
            (planClobberResult result gL o c) h
          = (starRingEnd ℂ) (r2c (recep_grid c) h) * r2c (result o c) h
            * ((1 / (nx * ny * nz : ℝ) : ℝ) : ℂ))
    ∧ Fintype.card (HalfIdx nx ny nz) = nx * ny * (nz / 2 + 1)
    ∧ fft_correlate_batch recep_grid result gR gL o c
        = c2r (correlSpectrum (recep_grid c) (result o c)) := by
  have hclr : planClobberRecep recep_grid gR c = recep_grid c := by
    simp only [planClobberRecep]
    rw [if_neg hc]
  have hcll : planClobberResult result gL o c = result o c := by
    simp only [planClobberResult]
    rw [if_neg (fun hco => hc hco.2)]
  refine ⟨fun h => by rw [hclr, hcll]; exact rfl, ?_, ?_⟩
  · rw [Fintype.card_prod, Fintype.card_prod, ZMod.card, ZMod.card,
      Fintype.card_fin]
    ring
  · unfold fft_correlate_batch
    rw [hclr, hcll]

/-- Claim C4 (amended) witness at a concrete `1×1×1` two-channel instance
with channel `c = 1`. -/
theorem fft_correlate_batch_pointwise_step_witness :
    (((1 : Fin 2) : ℕ) ≠ 0)
    ∧ ((∀ h : HalfIdx 1 1 1,
          @correlSpectrum 1 1 1 ⟨one_ne_zero⟩ ⟨one_ne_zero⟩ ⟨one_ne_zero⟩
              (@planClobberRecep 1 1 1 2 (fun _ _ => 0) (fun _ => 0) 1)
              (@planClobberResult 1 1 1 2 1 (fun _ _ _ => 0) (fun _ => 0) 0 1) h
            = (starRingEnd ℂ)
                (@r2c 1 1 1 ⟨one_ne_zero⟩ ⟨one_ne_zero⟩ ⟨one_ne_zero⟩
                  (fun _ => 0) h)
              * @r2c 1 1 1 ⟨one_ne_zero⟩ ⟨one_ne_zero⟩ ⟨one_ne_zero⟩
                  (fun _ => 0) h
              * ((1 / (((1 : ℕ) : ℝ) * ((1 : ℕ) : ℝ) * ((1 : ℕ) : ℝ)) : ℝ) : ℂ))
      ∧ Fintype.card (HalfIdx 1 1 1) = 1 * 1 * (1 / 2 + 1)
      ∧ @fft_correlate_batch 1 1 1 ⟨one_ne_zero⟩ ⟨one_ne_zero⟩ ⟨one_ne_zero⟩ 2 1
            (fun _ _ => 0) (fun _ _ _ => 0) (fun _ => 0) (fun _ => 0) 0 1
          = @c2r 1 1 1 ⟨one_ne_zero⟩ ⟨one_ne_zero⟩ ⟨one_ne_zero⟩
            (@correlSpectrum 1 1 1 ⟨one_ne_zero⟩ ⟨one_ne_zero⟩ ⟨one_ne_zero⟩
              (fun _ => 0) (fun _ => 0))) :=
  ⟨by decide, @fft_correlate_batch_pointwise_step 1 1 1 ⟨one_ne_zero⟩
    ⟨one_ne_zero⟩ ⟨one_ne_zero⟩ 2 1 (fun _ _ => 0) (fun _ _ _ => 0)
    (fun _ => 0) (fun _ => 0) 0 1 (by decide)⟩

/-- Claim C4, counterexample to the original statement: at channel 0 the
spectrum handed to the inverse transform is built from the
planning-clobbered fields, not the original ones.  On a `1×1×1` all-ones
batch with zeroed planner residue it is `0` at the only half-spectrum
index, where the original-field formula `conj(S_target)*S_cand*scale`
gives `1`. -/
theorem fft_correlate_batch_pointwise_clobber_counterexample :
    @correlSpectrum 1 1 1 ⟨one_ne_zero⟩ ⟨one_ne_zero⟩ ⟨one_ne_zero⟩
        (@planClobberRecep 1 1 1 1 (fun _ _ => 1) (fun _ => 0) 0)
        (@planClobberResult 1 1 1 1 1 (fun _ _ _ => 1) (fun _ => 0) 0 0)
        (0, 0, ⟨0, by omega⟩)
      ≠ (starRingEnd ℂ)
          (@r2c 1 1 1 ⟨one_ne_zero⟩ ⟨one_ne_zero⟩ ⟨one_ne_zero⟩
            (fun _ => 1) (0, 0, ⟨0, by omega⟩))
        * @r2c 1 1 1 ⟨one_ne_zero⟩ ⟨one_ne_zero⟩ ⟨one_ne_zero⟩
            (fun _ => 1) (0, 0, ⟨0, by omega⟩)
        * ((1 / (((1 : ℕ) : ℝ) * ((1 : ℕ) : ℝ) * ((1 : ℕ) : ℝ)) : ℝ) : ℂ) := by
  haveI : NeZero (1 : ℕ) := ⟨one_ne_zero⟩
  have hL : @correlSpectrum 1 1 1 ⟨one_ne_zero⟩ ⟨one_ne_zero⟩ ⟨one_ne_zero⟩
      (@planClobberRecep 1 1 1 1 (fun _ _ => 1) (fun _ => 0) 0)
      (@planClobberResult 1 1 1 1 1 (fun _ _ _ => 1) (fun _ => 0) 0 0)
      (0, 0, ⟨0, by omega⟩) = 0 := by
    unfold correlSpectrum planClobberRecep
    rw [if_pos (show ((0 : Fin 1) : ℕ) = 0 from rfl), r2c_zeros]
    simp
  have hR : (starRingEnd ℂ)
        (@r2c 1 1 1 ⟨one_ne_zero⟩ ⟨one_ne_zero⟩ ⟨one_ne_zero⟩
          (fun _ => (1 : ℝ)) (0, 0, ⟨0, by omega⟩))
      * @r2c 1 1 1 ⟨one_ne_zero⟩ ⟨one_ne_zero⟩ ⟨one_ne_zero⟩
          (fun _ => (1 : ℝ)) (0, 0, ⟨0, by omega⟩)
      * ((1 / (((1 : ℕ) : ℝ) * ((1 : ℕ) : ℝ) * ((1 : ℕ) : ℝ)) : ℝ) : ℂ)
      = 1 := by
    rw [r2c_ones]
    norm_num
  rw [hL, hR]
  norm_num

end PairingLemmas

end Crimm
